import Mathlib

/-!
# Sort visualizer: instrumented sorting engine and bounded random sampler

A shallow embedding of `src/main.c` (functions `randint`, `swap`, `update_screen`,
`bubble_sort`, `partition`, `quick_sort` and the height handling of `main`).

* The C array `int *arr` is a `List Int`; C `int` indices are `Int`, so the boundary
  index `start - 1` of `partition` can be `-1`.
* Every `arr[idx]` is executed through `arrRead` or `arrWrite`, which fault with
  `Fault.outOfRange idx` when `idx` is outside `[0, length)` (undefined behaviour in C)
  and otherwise append the access to the machine trace.
* `update_screen(arr, renderer, i, j)` is the notification: it appends `Event.screen i j`
  to the trace and runs `draw_state`, whose reads `arr[i]` for `i = 0 .. C.width - 1` are
  executed through `arrDraw` and recorded as `Event.draw i`; the SDL calls are external.
* The global `C.width` is the parameter `width` of the functions that use it, directly or
  through `update_screen`.
* `rand()` is a list of raw draws that is consumed from the front.
* `RAND_MAX` comes from `<stdlib.h>` and is a parameter.
* `quick_sort` recurses on a `fuel` counter that bounds the recursion depth; the theorems
  give the fuel that is enough.
* In the runs considered the index arithmetic stays in `[-1, N]` and `randint` computes
  values in `[0, RAND_MAX]`, so C `int` arithmetic does not wrap and `Int` is exact.
-/

namespace SortVisualizer

/-! ## Data model -/

/-- Ways in which a run of the embedded program can fail to produce a value. -/
inductive Fault where
  | outOfRange (idx : Int)
  | divisionByZero
  | drawsExhausted
  | outOfFuel
  deriving DecidableEq

/-- Observable steps of a run, in program order. -/
inductive Event where
  | read (idx : Int)
  | write (idx : Int)
  | draw (idx : Int)
  | screen (i j : Int)
  | call (start end_ : Int)
  deriving DecidableEq

/-- Program state: the array being sorted and the trace of events so far. -/
structure Machine where
  arr : List Int
  trace : List Event
  deriving DecidableEq

/-- Evaluation of `arr[idx]` as an rvalue. -/
def arrRead (m : Machine) (idx : Int) : Except Fault (Int × Machine) :=
  if 0 ≤ idx ∧ idx < m.arr.length then
    .ok (m.arr.getD idx.toNat 0, { m with trace := m.trace ++ [Event.read idx] })
  else .error (Fault.outOfRange idx)

/-- Execution of `arr[idx] = v`. -/
def arrWrite (m : Machine) (idx : Int) (v : Int) : Except Fault Machine :=
  if 0 ≤ idx ∧ idx < m.arr.length then
    .ok { arr := m.arr.set idx.toNat v, trace := m.trace ++ [Event.write idx] }
  else .error (Fault.outOfRange idx)

/-- Evaluation of `arr[idx]` in `draw_state`. -/
def arrDraw (m : Machine) (idx : Int) : Except Fault Machine :=
  if 0 ≤ idx ∧ idx < m.arr.length then
    .ok { m with trace := m.trace ++ [Event.draw idx] }
  else .error (Fault.outOfRange idx)

/-- The loop `for (int j = lo; j < hi; j++) body`, where `body` changes neither `j` nor
`hi`: it runs `hi - lo` times (no time when `hi <= lo`). -/
def forLoopAux {σ : Type} (body : Int → σ → Except Fault σ) : Nat → Int → σ → Except Fault σ
  | 0, _, s => .ok s
  | k + 1, j, s =>
    match body j s with
    | .error e => .error e
    | .ok s1 => forLoopAux body k (j + 1) s1

/-- See `forLoopAux`. -/
def forLoop {σ : Type} (lo hi : Int) (body : Int → σ → Except Fault σ) (s : σ) :
    Except Fault σ :=
  forLoopAux body (hi - lo).toNat lo s

/-! ## `swap`, `draw_state` and `update_screen` -/

/-- The function `swap`: `tmp = arr[i]; arr[i] = arr[j]; arr[j] = tmp;`. -/
def swap (m : Machine) (i j : Int) : Except Fault Machine :=
  match arrRead m i with
  | .error e => .error e
  | .ok (tmp, m1) =>
    match arrRead m1 j with
    | .error e => .error e
    | .ok (aj, m2) =>
      match arrWrite m2 i aj with
      | .error e => .error e
      | .ok m3 => arrWrite m3 j tmp

/-- The function `draw_state`; `width` is the global `C.width`. Each iteration
`i = 0 .. C.width - 1` evaluates `arr[i]` for the line it draws; the colour chosen from
`green` and `red` and the line itself go to SDL. -/
def draw_state (width : Int) (m : Machine) (_green _red : Int) : Except Fault Machine :=
  forLoop 0 width (fun i m1 => arrDraw m1 i) m

/-- The function `update_screen`: the call is the notification of the index pair `(i, j)`,
recorded as `Event.screen i j`, and it runs `draw_state(arr, renderer, i, j)`; clearing,
presenting and the delay are SDL calls. -/
def update_screen (width : Int) (m : Machine) (i j : Int) : Except Fault Machine :=
  draw_state width { m with trace := m.trace ++ [Event.screen i j] } i j

/-! ## Sorting algorithms -/

/-- Body of the inner loop of `bubble_sort`:
`if (arr[i] > arr[j]) swap(arr, i, j); update_screen(arr, renderer, i, j);`. -/
def bubbleInner (width : Int) (i j : Int) (m : Machine) : Except Fault Machine :=
  match arrRead m i with
  | .error e => .error e
  | .ok (ai, m1) =>
    match arrRead m1 j with
    | .error e => .error e
    | .ok (aj, m2) =>
      if ai > aj then
        match swap m2 i j with
        | .error e => .error e
        | .ok m3 => update_screen width m3 i j
      else update_screen width m2 i j

/-- The function `bubble_sort`; `width` is the global `C.width`. -/
def bubble_sort (width : Int) (m : Machine) : Except Fault Machine :=
  forLoop 0 width
    (fun i m1 => forLoop i width (fun j m2 => bubbleInner width i j m2) m1) m

/-- Body of the loop of `partition`, on the loop state `(i, machine)`:
`if (arr[j] < pivot) { i++; swap(arr, i, j); } update_screen(arr, renderer, i, j);`. -/
def partitionStep (width : Int) (pivot : Int) (j : Int) (st : Int × Machine) :
    Except Fault (Int × Machine) :=
  match arrRead st.2 j with
  | .error e => .error e
  | .ok (aj, m1) =>
    if aj < pivot then
      match swap m1 (st.1 + 1) j with
      | .error e => .error e
      | .ok m2 =>
        match update_screen width m2 (st.1 + 1) j with
        | .error e => .error e
        | .ok m3 => .ok (st.1 + 1, m3)
    else
      match update_screen width m1 st.1 j with
      | .error e => .error e
      | .ok m3 => .ok (st.1, m3)

/-- The function `partition`; `width` is the global `C.width`, which `update_screen` uses.
Entering the function is recorded as `Event.call start end_`. The loop condition
`j <= end - 1` is `j < end`. -/
def partition (width : Int) (m : Machine) (start end_ : Int) : Except Fault (Int × Machine) :=
  match arrRead { m with trace := m.trace ++ [Event.call start end_] } end_ with
  | .error e => .error e
  | .ok (pivot, m1) =>
    match forLoop start end_ (partitionStep width pivot) (start - 1, m1) with
    | .error e => .error e
    | .ok (i, m2) =>
      match swap m2 (i + 1) end_ with
      | .error e => .error e
      | .ok m3 => .ok (i + 1, m3)

/-- The function `quick_sort`; `width` is the global `C.width`. The recursion depth is
bounded by `fuel`; running out of it is `Fault.outOfFuel`. -/
def quick_sort (width : Int) : Nat → Machine → Int → Int → Except Fault Machine
  | fuel, m, start, end_ =>
    if end_ ≤ start then .ok m
    else
      match fuel with
      | 0 => .error Fault.outOfFuel
      | fuel + 1 =>
        match partition width m start end_ with
        | .error e => .error e
        | .ok (pivot, m1) =>
          match quick_sort width fuel m1 start (pivot - 1) with
          | .error e => .error e
          | .ok m2 => quick_sort width fuel m2 (pivot + 1) end_

/-- An event stays inside its bounds: an access of `arr` by the sorting code (`read`,
`write`) uses an index of the window `[lo, hi)`, a read of `arr` by `draw_state` (`draw`)
uses an index in `[0, width)`, and a call of `partition` is on a non-empty range inside the
window. -/
def Event.okIn (width lo hi : Int) : Event → Prop
  | .read idx => lo ≤ idx ∧ idx < hi
  | .write idx => lo ≤ idx ∧ idx < hi
  | .draw idx => 0 ≤ idx ∧ idx < width
  | .screen _ _ => True
  | .call start end_ => lo ≤ start ∧ start ≤ end_ ∧ end_ < hi

instance (width lo hi : Int) : DecidablePred (Event.okIn width lo hi) := by
  intro e
  cases e <;> unfold Event.okIn <;> infer_instance

/-- The reads of `arr` one run of `draw_state` makes: the indices `0 .. C.width - 1` in
order. -/
def drawReads (width : Int) : List Event :=
  (List.range width.toNat).map (fun (k : Nat) => Event.draw k)

/-- Notifications of a trace, in order. -/
def screens : List Event → List (Int × Int)
  | [] => []
  | Event.screen i j :: es => (i, j) :: screens es
  | _ :: es => screens es

/-- The index pairs `(i, j)` with `i = 0..N-1` and, for each `i`, `j = i..N-1`, in
lexicographic order. -/
def bubblePairs (N : Nat) : List (Int × Int) :=
  (List.range N).flatMap
    (fun (i : Nat) => (List.range' i (N - i)).map (fun (j : Nat) => ((i : Int), (j : Int))))

/-- The array `[5, 3, 4, 1, 2]` with an empty trace. -/
def demoMachine : Machine := ⟨[5, 3, 4, 1, 2], []⟩

/-! ## `randint` -/

/-- The loop `while ((r = rand()) >= end);` of `randint` over the raw draws still to come:
the first draw below `end_`, with the draws left after it. -/
def randintLoop (end_ : Int) : List Int → Except Fault (Int × List Int)
  | [] => .error Fault.drawsExhausted
  | r :: rest => if r ≥ end_ then randintLoop end_ rest else .ok (r, rest)

/-- The local `end` of `randint`: `int end = RAND_MAX / n; end *= n;` (C division
truncates). -/
def randintEnd (RAND_MAX n : Int) : Int :=
  RAND_MAX.tdiv n * n

/-- The function `randint`, on the list of raw draws `rand()` will deliver; it returns the
value and the draws left. `RAND_MAX / 0` is `Fault.divisionByZero`. -/
def randint (RAND_MAX n : Int) (draws : List Int) : Except Fault (Int × List Int) :=
  if n - 1 = RAND_MAX then
    match draws with
    | [] => .error Fault.drawsExhausted
    | r :: rest => .ok (r, rest)
  else if n = 0 then .error Fault.divisionByZero
  else
    match randintLoop (randintEnd RAND_MAX n) draws with
    | .error e => .error e
    | .ok (r, rest) => .ok (r.tmod n, rest)

/-- The value `randint(n)` returns when the next raw draw is `r`, and `none` when that draw
is rejected. -/
def randintOut (RAND_MAX n r : Int) : Option Int :=
  match randint RAND_MAX n [r] with
  | .ok (v, _) => some v
  | .error _ => none

/-! ## The parts of `main` that feed `randint` -/

/-- The fields `width` and `height` of `struct config`. -/
structure Config where
  width : Int
  height : Int
  deriving DecidableEq

/-- The defaults set at the start of `main`: `C.width = 200; C.height = 150;`. -/
def defaultConfig : Config := ⟨200, 150⟩

/-- The case 'h' of the option loop of `main`, with `v` the value of `atoi(optarg)`:
`C.height = v; if (C.height <= 0) return 1;` (here `none`). -/
def optHeight (C : Config) (v : Int) : Option Config :=
  if v ≤ 0 then none else some { C with height := v }

/-- The loop of `main` that fills the array:
`for (int i = 0; i < C.width; i++) arr[i] = randint(C.height - 1) + 1;`.
The state is the part of the array filled so far and the raw draws left. -/
def fillArray (RAND_MAX : Int) (C : Config) (draws : List Int) :
    Except Fault (List Int × List Int) :=
  forLoop 0 C.width
    (fun _ st =>
      match randint RAND_MAX (C.height - 1) st.2 with
      | .error e => .error e
      | .ok (r, rest) => .ok (st.1 ++ [r + 1], rest))
    ([], draws)

/-! ## Basic facts on array accesses -/

theorem arrRead_at (A B : List Int) (a : Int) (tr : List Event) (i : Int)
    (hi : i = A.length) :
    arrRead ⟨A ++ a :: B, tr⟩ i = .ok (a, ⟨A ++ a :: B, tr ++ [Event.read i]⟩) := by
  subst hi
  have h : (A.length : Int) < (A.length : Int) + ((B.length : Int) + 1) := by omega
  simp [arrRead, h, List.getD_eq_getElem?_getD, List.getElem_append]

theorem arrWrite_at (A B : List Int) (a v : Int) (tr : List Event) (i : Int)
    (hi : i = A.length) :
    arrWrite ⟨A ++ a :: B, tr⟩ i v = .ok ⟨A ++ v :: B, tr ++ [Event.write i]⟩ := by
  subst hi
  have h : (A.length : Int) < (A.length : Int) + ((B.length : Int) + 1) := by omega
  simp [arrWrite, h]

theorem swap_lt (A B C : List Int) (a b : Int) (tr : List Event) (i j : Int)
    (hi : i = A.length) (hj : j = A.length + 1 + B.length) :
    swap ⟨A ++ a :: B ++ b :: C, tr⟩ i j
      = .ok ⟨A ++ b :: B ++ a :: C,
          tr ++ [Event.read i, Event.read j, Event.write i, Event.write j]⟩ := by
  have e1 : ∀ x y : Int, A ++ x :: B ++ y :: C = A ++ x :: (B ++ y :: C) := by
    intro x y; simp
  have hj2 : j = ((A ++ a :: B).length : Int) := by simp [hj]; omega
  have hj3 : j = ((A ++ b :: B).length : Int) := by simp [hj]; omega
  unfold swap
  rw [e1, arrRead_at A _ a tr i hi]
  simp only []
  rw [← e1, arrRead_at (A ++ a :: B) C b _ j hj2]
  simp only []
  rw [e1, arrWrite_at A _ a b _ i hi]
  simp only []
  rw [← e1, arrWrite_at (A ++ b :: B) C b a _ j hj3]
  simp

theorem swap_self (A B : List Int) (a : Int) (tr : List Event) (i : Int)
    (hi : i = A.length) :
    swap ⟨A ++ a :: B, tr⟩ i i
      = .ok ⟨A ++ a :: B,
          tr ++ [Event.read i, Event.read i, Event.write i, Event.write i]⟩ := by
  unfold swap
  rw [arrRead_at A B a tr i hi]
  simp only []
  rw [arrRead_at A B a _ i hi]
  simp only []
  rw [arrWrite_at A B a a _ i hi]
  simp only []
  rw [arrWrite_at A B a a _ i hi]
  simp

theorem forLoopAux_zero {σ : Type} (body : Int → σ → Except Fault σ) (j : Int) (s : σ) :
    forLoopAux body 0 j s = .ok s := rfl

theorem forLoopAux_succ {σ : Type} (body : Int → σ → Except Fault σ) (k : Nat) (j : Int)
    (s s1 : σ) (h : body j s = .ok s1) :
    forLoopAux body (k + 1) j s = forLoopAux body k (j + 1) s1 := by
  simp [forLoopAux, h]

theorem screens_append (xs ys : List Event) : screens (xs ++ ys) = screens xs ++ screens ys := by
  induction xs with
  | nil => rfl
  | cons e es ih => cases e <;> simp [screens, ih]

theorem Event.okIn_mono {width lo hi lo2 hi2 : Int} (h1 : lo2 ≤ lo) (h2 : hi ≤ hi2)
    {e : Event} (h : e.okIn width lo hi) : e.okIn width lo2 hi2 := by
  cases e <;> simp only [Event.okIn] at h ⊢ <;> omega

theorem Event.okIn_width {width w2 lo hi : Int} (hw : width ≤ w2) {e : Event}
    (h : e.okIn width lo hi) : e.okIn w2 lo hi := by
  cases e <;> simp only [Event.okIn] at h ⊢ <;> omega

theorem arrDraw_ok (arr : List Int) (tr : List Event) (idx : Int) (h0 : 0 ≤ idx)
    (h1 : idx < arr.length) :
    arrDraw ⟨arr, tr⟩ idx = .ok ⟨arr, tr ++ [Event.draw idx]⟩ := by
  simp [arrDraw, h0, h1]

theorem draw_loop (arr : List Int) :
    ∀ (n j : Nat) (tr : List Event), j + n ≤ arr.length →
      forLoopAux (fun i m1 => arrDraw m1 i) n (j : Int) ⟨arr, tr⟩
        = .ok ⟨arr, tr ++ (List.range' j n).map (fun (k : Nat) => Event.draw k)⟩ := by
  intro n
  induction n with
  | zero => intro j tr _; simp [forLoopAux]
  | succ n ih =>
    intro j tr h
    rw [forLoopAux_succ _ _ _ _ _ (arrDraw_ok arr tr j (by omega) (by omega))]
    have h2 := ih (j + 1) (tr ++ [Event.draw j]) (by omega)
    push_cast at h2
    rw [h2, List.range'_succ]
    simp

theorem update_screen_ok (width : Int) (arr : List Int) (tr : List Event) (i j : Int)
    (hw : width ≤ arr.length) :
    update_screen width ⟨arr, tr⟩ i j
      = .ok ⟨arr, tr ++ Event.screen i j :: drawReads width⟩ := by
  unfold update_screen draw_state forLoop drawReads
  have h := draw_loop arr (width - 0).toNat 0 (tr ++ [Event.screen i j]) (by omega)
  simp only [Nat.cast_zero] at h
  rw [h, List.range_eq_range']
  simp

theorem screens_drawReads (width : Int) : screens (drawReads width) = [] := by
  unfold drawReads
  induction List.range width.toNat with
  | nil => rfl
  | cons k ks ih => simpa [screens] using ih

theorem screens_notify (width i j : Int) :
    screens (Event.screen i j :: drawReads width) = [(i, j)] := by
  simp [screens, screens_drawReads]

theorem notify_okIn (width lo hi i j : Int) :
    ∀ e ∈ Event.screen i j :: drawReads width, e.okIn width lo hi := by
  intro e he
  rcases List.mem_cons.1 he with h | h
  · subst h; simp only [Event.okIn]
  · unfold drawReads at h
    obtain ⟨k, hk, rfl⟩ := List.mem_map.1 h
    have hk2 : k < width.toNat := List.mem_range.1 hk
    simp only [Event.okIn]
    omega

/-! ## The loop of `partition` -/

theorem partitionStep_spec (width pivot : Int) (pre post rest l r : List Int) (x : Int)
    (tr : List Event) (i j : Int)
    (hw : width ≤ ((pre ++ l ++ r ++ x :: rest ++ post).length : Int))
    (hi : i = (pre.length : Int) + l.length - 1)
    (hj : j = (pre.length : Int) + l.length + r.length)
    (hl : ∀ y ∈ l, y < pivot) (hr : ∀ y ∈ r, pivot ≤ y) :
    ∃ l2 r2 ev,
      partitionStep width pivot j (i, ⟨pre ++ l ++ r ++ x :: rest ++ post, tr⟩)
        = .ok (i + (if x < pivot then 1 else 0),
            ⟨pre ++ l2 ++ r2 ++ rest ++ post, tr ++ ev⟩) ∧
      l2.length = l.length + (if x < pivot then 1 else 0) ∧
      l2.length + r2.length = l.length + r.length + 1 ∧
      (l2 ++ r2).Perm (l ++ r ++ [x]) ∧
      (∀ y ∈ l2, y < pivot) ∧ (∀ y ∈ r2, pivot ≤ y) ∧
      screens ev = [(i + (if x < pivot then 1 else 0), j)] ∧
      ∀ e ∈ ev, e.okIn width pre.length (j + 1) := by
  have hread : arrRead ⟨pre ++ l ++ r ++ x :: rest ++ post, tr⟩ j
      = .ok (x, ⟨pre ++ l ++ r ++ x :: rest ++ post, tr ++ [Event.read j]⟩) := by
    have e1 : pre ++ l ++ r ++ x :: rest ++ post = (pre ++ l ++ r) ++ x :: (rest ++ post) := by
      simp
    rw [e1]
    exact arrRead_at _ _ x tr j
      (by simp only [List.length_append]; omega)
  have hpre : (0 : Int) ≤ pre.length := Int.natCast_nonneg _
  have hll : (0 : Int) ≤ l.length := Int.natCast_nonneg _
  have hrl : (0 : Int) ≤ r.length := Int.natCast_nonneg _
  unfold partitionStep
  simp only [hread]
  by_cases hx : x < pivot
  · simp only [hx, if_true]
    cases r with
    | nil =>
      have hij : i + 1 = j := by simp at hj; omega
      have e1 : pre ++ l ++ [] ++ x :: rest ++ post = (pre ++ l) ++ x :: (rest ++ post) := by
        simp
      rw [e1] at hw
      rw [hij, e1, swap_self (pre ++ l) (rest ++ post) x _ j
        (by simp only [List.length_append, List.length_nil] at *; omega)]
      simp only [update_screen_ok width _ _ j j hw]
      refine ⟨l ++ [x], [], [Event.read j, Event.read j, Event.read j, Event.write j,
        Event.write j] ++ Event.screen j j :: drawReads width,
        ?_, by simp, by simp, by simp, ?_, by simp, ?_, ?_⟩
      · simp
      · intro y hy
        rcases List.mem_append.1 hy with h | h
        · exact hl y h
        · simp at h; rw [h]; exact hx
      · rw [screens_append, screens_notify]
        simp [screens]
      · intro e he
        rcases List.mem_append.1 he with h | h
        · simp only [List.mem_cons, List.mem_singleton, List.not_mem_nil, or_false] at h
          rcases h with h | h | h | h | h <;> subst h <;> simp only [Event.okIn] <;> omega
        · exact notify_okIn width _ _ j j e h
    | cons b r0 =>
      have e1 : pre ++ l ++ b :: r0 ++ x :: rest ++ post
          = (pre ++ l) ++ b :: r0 ++ x :: (rest ++ post) := by simp
      have hw2 : width ≤ (((pre ++ l) ++ x :: r0 ++ b :: (rest ++ post)).length : Int) := by
        simp only [List.length_append, List.length_cons] at hw ⊢
        omega
      rw [e1, swap_lt (pre ++ l) r0 (rest ++ post) b x _ (i + 1) j
        (by simp only [List.length_append]; omega)
        (by simp only [List.length_append, List.length_cons] at *; omega)]
      simp only [update_screen_ok width _ _ (i + 1) j hw2]
      refine ⟨l ++ [x], r0 ++ [b], [Event.read j, Event.read (i + 1), Event.read j,
        Event.write (i + 1), Event.write j] ++ Event.screen (i + 1) j :: drawReads width,
        ?_, by simp, by simp; omega, ?_, ?_, ?_, ?_, ?_⟩
      · simp
      · simp only [List.append_assoc]
        refine List.Perm.append_left l ?_
        exact ((List.perm_append_singleton b r0).cons x).trans
          ((List.Perm.swap b x r0).trans ((List.perm_append_singleton x r0).cons b).symm)
      · intro y hy
        rcases List.mem_append.1 hy with h | h
        · exact hl y h
        · simp at h; rw [h]; exact hx
      · intro y hy
        rcases List.mem_append.1 hy with h | h
        · exact hr y (List.mem_cons_of_mem _ h)
        · simp at h; rw [h]; exact hr b (List.mem_cons_self _ _)
      · rw [screens_append, screens_notify]
        simp [screens]
      · intro e he
        simp only [List.length_cons] at hj
        rcases List.mem_append.1 he with h | h
        · simp only [List.mem_cons, List.mem_singleton, List.not_mem_nil, or_false] at h
          rcases h with h | h | h | h | h <;> subst h <;> simp only [Event.okIn] <;> omega
        · exact notify_okIn width _ _ (i + 1) j e h
  · simp only [hx, if_false]
    simp only [update_screen_ok width _ _ i j hw]
    refine ⟨l, r ++ [x], [Event.read j] ++ Event.screen i j :: drawReads width,
      ?_, by simp, by simp; omega, by simp, hl, ?_, ?_, ?_⟩
    · simp
    · intro y hy
      rcases List.mem_append.1 hy with h | h
      · exact hr y h
      · simp at h; rw [h]; omega
    · rw [screens_append, screens_notify]
      simp [screens]
    · intro e he
      rcases List.mem_append.1 he with h | h
      · simp only [List.mem_singleton] at h
        subst h; simp only [Event.okIn]; omega
      · exact notify_okIn width _ _ i j e h

theorem partition_loop (width pivot : Int) (pre post : List Int) :
    ∀ (rest l r : List Int) (tr : List Event) (i j : Int),
      width ≤ ((pre ++ l ++ r ++ rest ++ post).length : Int) →
      i = (pre.length : Int) + l.length - 1 →
      j = (pre.length : Int) + l.length + r.length →
      (∀ y ∈ l, y < pivot) → (∀ y ∈ r, pivot ≤ y) →
      ∃ l2 r2 ev,
        forLoopAux (partitionStep width pivot) rest.length j
            (i, ⟨pre ++ l ++ r ++ rest ++ post, tr⟩)
          = .ok (i + (rest.countP (· < pivot) : Nat), ⟨pre ++ l2 ++ r2 ++ post, tr ++ ev⟩) ∧
        l2.length = l.length + rest.countP (· < pivot) ∧
        l2.length + r2.length = l.length + r.length + rest.length ∧
        (l2 ++ r2).Perm (l ++ r ++ rest) ∧
        (∀ y ∈ l2, y < pivot) ∧ (∀ y ∈ r2, pivot ≤ y) ∧
        screens ev = (List.range rest.length).map
          (fun t => (i + ((rest.take (t + 1)).countP (· < pivot) : Nat), j + (t : Int))) ∧
        ∀ e ∈ ev, e.okIn width pre.length (j + rest.length) := by
  intro rest
  induction rest with
  | nil =>
    intro l r tr i j _ _ _ hl hr
    exact ⟨l, r, [], by simp [forLoopAux], by simp, by simp, by simp, hl, hr, by simp [screens],
      by simp⟩
  | cons x rest ih =>
    intro l r tr i j hw hi hj hl hr
    obtain ⟨l1, r1, ev1, hstep, hlen1, hsum1, hperm1, hl1, hr1, hscr1, hok1⟩ :=
      partitionStep_spec width pivot pre post rest l r x tr i j hw hi hj hl hr
    obtain ⟨l2, r2, ev2, hloop, hlen2, hsum2, hperm2, hl2, hr2, hscr2, hok2⟩ :=
      ih l1 r1 (tr ++ ev1) (i + (if x < pivot then 1 else 0)) (j + 1)
        (by simp only [List.length_append, List.length_cons] at hw ⊢; omega)
        (by rw [hlen1]; split_ifs <;> push_cast <;> omega) (by omega) hl1 hr1
    refine ⟨l2, r2, ev1 ++ ev2, ?_, ?_, ?_, ?_, hl2, hr2, ?_, ?_⟩
    · rw [List.length_cons, forLoopAux_succ _ _ _ _ _ hstep, hloop, List.countP_cons]
      simp only [List.append_assoc, decide_eq_true_eq]
      congr 2
      split_ifs <;> simp
      omega
    · rw [hlen2, hlen1, List.countP_cons]
      simp only [decide_eq_true_eq]
      split_ifs <;> omega
    · simp only [List.length_cons]; omega
    · refine hperm2.trans ?_
      have h3 : (l1 ++ r1 ++ rest).Perm (l ++ r ++ [x] ++ rest) := hperm1.append_right rest
      simpa using h3
    · rw [screens_append, hscr1, hscr2, List.length_cons, List.range_succ_eq_map]
      simp only [List.map_cons, List.map_map, List.take_succ_cons, List.countP_cons,
        List.take_zero, List.countP_nil, decide_eq_true_eq, List.singleton_append]
      congr 1
      · split_ifs <;> simp
      · apply List.map_congr_left
        intro t _
        simp only [Function.comp, Prod.mk.injEq, Nat.succ_eq_add_one]
        constructor
        · split_ifs <;> push_cast <;> omega
        · push_cast; omega
    · intro e he
      rcases List.mem_append.1 he with h | h
      · exact Event.okIn_mono (le_refl _) (by simp only [List.length_cons]; push_cast; omega)
          (hok1 e h)
      · exact Event.okIn_mono (le_refl _) (by simp only [List.length_cons]; push_cast; omega)
          (hok2 e h)

/-! ## `partition` on a decomposed array -/

theorem partition_decomp (width : Int) (pre mid post : List Int) (pivot : Int)
    (tr : List Event) (start end_ p : Int)
    (hw : width ≤ ((pre ++ mid ++ pivot :: post).length : Int)) (hs : start = pre.length)
    (he : end_ = (pre.length : Int) + mid.length)
    (hp : p = start + (mid.countP (· < pivot) : Nat)) :
    ∃ l r ev,
      partition width ⟨pre ++ mid ++ pivot :: post, tr⟩ start end_
        = .ok (p, ⟨pre ++ l ++ pivot :: r ++ post,
            tr ++ (Event.call start end_ :: Event.read end_ :: ev) ++
              [Event.read p, Event.read end_, Event.write p, Event.write end_]⟩) ∧
      l.length = mid.countP (· < pivot) ∧
      l.length + r.length = mid.length ∧
      (l ++ r).Perm mid ∧ (∀ y ∈ l, y < pivot) ∧ (∀ y ∈ r, pivot ≤ y) ∧
      screens ev = (List.range mid.length).map
        (fun t => (start - 1 + ((mid.take (t + 1)).countP (· < pivot) : Nat),
          start + (t : Int))) ∧
      ∀ e ∈ ev, e.okIn width start end_ := by
  have hread : arrRead ⟨pre ++ mid ++ pivot :: post, tr ++ [Event.call start end_]⟩ end_
      = .ok (pivot, ⟨pre ++ mid ++ pivot :: post,
          tr ++ [Event.call start end_] ++ [Event.read end_]⟩) :=
    arrRead_at (pre ++ mid) post pivot _ end_
      (by (try simp only [List.length_append, List.length_cons, List.length_nil] at *); omega)
  have hn : (end_ - start).toNat = mid.length := by omega
  obtain ⟨l2, r2, ev, hloop, hlen, hsum, hperm, hl, hr, hscr, hok⟩ :=
    partition_loop width pivot pre (pivot :: post) mid [] []
      (tr ++ [Event.call start end_] ++ [Event.read end_]) (start - 1) start
      (by simpa using hw)
      (by simp only [List.length_nil]; omega) (by simp only [List.length_nil]; omega)
      (by simp) (by simp)
  have e0 : pre ++ [] ++ [] ++ mid ++ pivot :: post = pre ++ mid ++ pivot :: post := by simp
  rw [e0] at hloop
  have hp1 : start - 1 + ((mid.countP (· < pivot) : Nat) : Int) + 1 = p := by omega
  have hpl : p = ((pre ++ l2).length : Int) := by
    simp only [List.length_append, List.length_nil, zero_add] at *
    omega
  simp only [List.length_nil, zero_add, List.nil_append] at hlen hsum hperm
  have hend : start + (mid.length : Int) = end_ := by omega
  rw [hend, ← hs] at hok
  unfold partition forLoop
  simp only [hread, hn, hloop, hp1]
  cases r2 with
  | nil =>
    have hpe : p = end_ := by simp only [List.length_nil] at hsum; omega
    have e1 : pre ++ l2 ++ [] ++ pivot :: post = (pre ++ l2) ++ pivot :: post := by simp
    rw [e1, ← hpe, swap_self (pre ++ l2) post pivot _ p hpl]
    refine ⟨l2, [], ev, ?_, hlen, hsum, hperm, hl, hr, hscr, by rw [hpe]; exact hok⟩
    simp
  | cons b r0 =>
    have e1 : pre ++ l2 ++ b :: r0 ++ pivot :: post = (pre ++ l2) ++ b :: r0 ++ pivot :: post := by
      simp
    rw [e1, swap_lt (pre ++ l2) r0 post b pivot _ p end_ hpl
      (by simp only [List.length_append, List.length_cons] at *; omega)]
    refine ⟨l2, r0 ++ [b], ev, ?_, hlen, ?_, ?_, hl, ?_, hscr, hok⟩
    · simp
    · simp only [List.length_append, List.length_cons, List.length_nil] at *; omega
    · refine List.Perm.trans ?_ hperm
      exact List.Perm.append_left l2 (List.perm_append_singleton b r0)
    · intro y hy
      rcases List.mem_append.1 hy with h | h
      · exact hr y (List.mem_cons_of_mem _ h)
      · simp at h; rw [h]; exact hr b (List.mem_cons_self _ _)

/-! ## `quick_sort` on a decomposed array -/

theorem quick_sort_base (width : Int) (fuel : Nat) (m : Machine) (start end_ : Int)
    (h : end_ ≤ start) : quick_sort width fuel m start end_ = .ok m := by
  cases fuel <;> simp [quick_sort, h]

theorem quick_sort_step (width : Int) (fuel : Nat) (m m1 : Machine) (start end_ p : Int)
    (h : ¬ end_ ≤ start) (hp : partition width m start end_ = .ok (p, m1)) :
    quick_sort width (fuel + 1) m start end_ =
      match quick_sort width fuel m1 start (p - 1) with
      | .error e => .error e
      | .ok m2 => quick_sort width fuel m2 (p + 1) end_ := by
  simp [quick_sort, h, hp]

theorem sorted_of_length_le_one (l : List Int) (h : l.length ≤ 1) : l.Sorted (· ≤ ·) := by
  cases l with
  | nil => exact List.sorted_nil
  | cons a t =>
    cases t with
    | nil => exact List.sorted_singleton a
    | cons b t2 => simp at h

theorem quick_sort_decomp (width : Int) : ∀ (fuel : Nat) (pre mid post : List Int)
    (tr : List Event) (start end_ : Int), width ≤ ((pre ++ mid ++ post).length : Int) →
    start = pre.length → end_ = (pre.length : Int) + mid.length - 1 →
    mid.length ≤ fuel + 1 →
    ∃ mid2 ev,
      quick_sort width fuel ⟨pre ++ mid ++ post, tr⟩ start end_
        = .ok ⟨pre ++ mid2 ++ post, tr ++ ev⟩ ∧
      mid2.Perm mid ∧ mid2.Sorted (· ≤ ·) ∧ ∀ e ∈ ev, e.okIn width start (end_ + 1) := by
  intro fuel
  induction fuel with
  | zero =>
    intro pre mid post tr start end_ hw hs he hlen
    refine ⟨mid, [], ?_, List.Perm.refl _, sorted_of_length_le_one mid (by omega), by simp⟩
    rw [quick_sort_base width 0 _ start end_ (by omega)]
    simp
  | succ fuel ih =>
    intro pre mid post tr start end_ hw hs he hlen
    by_cases hle : end_ ≤ start
    · refine ⟨mid, [], ?_, List.Perm.refl _, sorted_of_length_le_one mid (by omega), by simp⟩
      rw [quick_sort_base width _ _ start end_ hle]
      simp
    · rcases List.eq_nil_or_concat mid with hnil | ⟨mid0, pivot, hmid⟩
      · subst hnil
        simp only [List.length_nil] at he
        omega
      · rw [List.concat_eq_append] at hmid
        subst hmid
        simp only [List.length_append, List.length_cons, List.length_nil] at he hlen hw
        obtain ⟨l, r, ev0, hpart, hl_len, hsum, hperm, hl, hr, -, hok0⟩ :=
          partition_decomp width pre mid0 post pivot tr start end_
            (start + (mid0.countP (· < pivot) : Nat))
            (by simp only [List.length_append, List.length_cons]; omega) hs (by omega) rfl
        have e0 : pre ++ (mid0 ++ [pivot]) ++ post = pre ++ mid0 ++ pivot :: post := by simp
        have e1 : pre ++ l ++ pivot :: r ++ post = pre ++ l ++ (pivot :: r ++ post) := by simp
        rw [e1] at hpart
        obtain ⟨l2, ev1, hq1, hperm1, hsort1, hok1⟩ :=
          ih pre l (pivot :: r ++ post) _ start
            (start + (mid0.countP (· < pivot) : Nat) - 1)
            (by simp only [List.length_append, List.length_cons]; omega)
            hs (by omega) (by omega)
        have e2 : pre ++ l2 ++ (pivot :: r ++ post) = (pre ++ l2 ++ [pivot]) ++ r ++ post := by
          simp
        rw [e2] at hq1
        have hl2_len : l2.length = l.length := hperm1.length_eq
        obtain ⟨r2, ev2, hq2, hperm2, hsort2, hok2⟩ :=
          ih (pre ++ l2 ++ [pivot]) r post
            (tr ++ (Event.call start end_ :: Event.read end_ :: ev0) ++
              [Event.read (start + (mid0.countP (· < pivot) : Nat)), Event.read end_,
                Event.write (start + (mid0.countP (· < pivot) : Nat)), Event.write end_] ++ ev1)
            (start + (mid0.countP (· < pivot) : Nat) + 1) end_
            (by simp only [List.length_append, List.length_cons, List.length_nil]; omega)
            (by simp only [List.length_append, List.length_cons, List.length_nil]; omega)
            (by simp only [List.length_append, List.length_cons, List.length_nil]; omega)
            (by omega)
        rw [e0, quick_sort_step width fuel _ _ start end_ _ hle hpart, hq1]
        dsimp only
        rw [hq2]
        refine ⟨l2 ++ pivot :: r2, (Event.call start end_ :: Event.read end_ :: ev0) ++
              [Event.read (start + (mid0.countP (· < pivot) : Nat)), Event.read end_,
                Event.write (start + (mid0.countP (· < pivot) : Nat)), Event.write end_] ++
              ev1 ++ ev2, ?_, ?_, ?_, ?_⟩
        · simp only [List.append_assoc, List.cons_append, List.nil_append]
        · have h1 : (l2 ++ pivot :: r2).Perm (l ++ pivot :: r) :=
            hperm1.append (hperm2.cons pivot)
          refine h1.trans ?_
          refine List.perm_middle.trans ?_
          refine (List.Perm.cons pivot hperm).trans ?_
          exact (List.perm_append_singleton pivot mid0).symm
        · refine List.pairwise_append.2 ⟨hsort1, ?_, ?_⟩
          · refine List.pairwise_cons.2 ⟨?_, hsort2⟩
            intro y hy
            exact hr y (hperm2.subset hy)
          · intro a ha b hb
            have h1 : a < pivot := hl a (hperm1.subset ha)
            rcases List.mem_cons.1 hb with h | h
            · omega
            · have h2 := hr b (hperm2.subset h)
              omega
        · intro e he2
          have hc : (0 : Int) ≤ (mid0.countP (· < pivot) : Nat) := Int.natCast_nonneg _
          have hc2 : (mid0.countP (· < pivot)) ≤ mid0.length := List.countP_le_length _
          simp only [List.mem_append, List.mem_cons, List.mem_singleton, List.not_mem_nil,
            or_false] at he2
          rcases he2 with (((h | h | h) | (h | h | h | h)) | h) | h
          · subst h; simp only [Event.okIn]; omega
          · subst h; simp only [Event.okIn]; omega
          · exact Event.okIn_mono (le_refl _) (by omega) (hok0 e h)
          · subst h; simp only [Event.okIn]; omega
          · subst h; simp only [Event.okIn]; omega
          · subst h; simp only [Event.okIn]; omega
          · subst h; simp only [Event.okIn]; omega
          · exact Event.okIn_mono (le_refl _) (by omega) (hok1 e h)
          · exact Event.okIn_mono (by omega) (le_refl _) (hok2 e h)

/-! ## `bubble_sort` on a decomposed array -/

theorem bubbleInner_self (width : Int) (pre rest : List Int) (a : Int) (tr : List Event)
    (i : Int) (hw : width ≤ ((pre ++ a :: rest).length : Int)) (hi : i = pre.length) :
    bubbleInner width i i ⟨pre ++ a :: rest, tr⟩
      = .ok ⟨pre ++ a :: rest,
          tr ++ ([Event.read i, Event.read i] ++ Event.screen i i :: drawReads width)⟩ := by
  unfold bubbleInner
  rw [arrRead_at pre rest a tr i hi]
  dsimp only
  rw [arrRead_at pre rest a _ i hi]
  simp [update_screen_ok width _ _ i i hw]

theorem bubbleInner_spec (width : Int) (pre done todo : List Int) (a x : Int)
    (tr : List Event) (i j : Int)
    (hw : width ≤ ((pre ++ a :: done ++ x :: todo).length : Int))
    (hi : i = pre.length) (hj : j = (pre.length : Int) + 1 + done.length)
    (hd : ∀ y ∈ done, a ≤ y) :
    ∃ a2 done2 ev,
      bubbleInner width i j ⟨pre ++ a :: done ++ x :: todo, tr⟩
        = .ok ⟨pre ++ a2 :: done2 ++ todo, tr ++ ev⟩ ∧
      (a2 :: done2).Perm (a :: done ++ [x]) ∧ (∀ y ∈ done2, a2 ≤ y) ∧
      screens ev = [(i, j)] ∧ ∀ e ∈ ev, e.okIn width i (j + 1) := by
  have e1 : pre ++ a :: done ++ x :: todo = pre ++ a :: (done ++ x :: todo) := by simp
  have hr1 : arrRead ⟨pre ++ a :: done ++ x :: todo, tr⟩ i
      = .ok (a, ⟨pre ++ a :: done ++ x :: todo, tr ++ [Event.read i]⟩) := by
    rw [e1]; exact arrRead_at pre _ a tr i hi
  have hr2 : arrRead ⟨pre ++ a :: done ++ x :: todo, tr ++ [Event.read i]⟩ j
      = .ok (x, ⟨pre ++ a :: done ++ x :: todo, tr ++ [Event.read i] ++ [Event.read j]⟩) :=
    arrRead_at (pre ++ a :: done) todo x _ j
      (by simp only [List.length_append, List.length_cons]; omega)
  have hdl : (0 : Int) ≤ done.length := Int.natCast_nonneg _
  unfold bubbleInner
  rw [hr1]
  dsimp only
  rw [hr2]
  dsimp only
  by_cases hx : a > x
  · have hw2 : width ≤ ((pre ++ x :: done ++ a :: todo).length : Int) := by
      simp only [List.length_append, List.length_cons] at hw ⊢
      omega
    rw [if_pos hx, swap_lt pre done todo a x _ i j hi hj]
    dsimp only
    rw [update_screen_ok width _ _ i j hw2]
    refine ⟨x, done ++ [a], [Event.read i, Event.read j, Event.read i, Event.read j,
      Event.write i, Event.write j] ++ Event.screen i j :: drawReads width, ?_, ?_, ?_, ?_, ?_⟩
    · simp
    · exact (List.Perm.cons x (List.perm_append_singleton a done)).trans
        ((List.Perm.swap a x done).trans
          (List.Perm.cons a (List.perm_append_singleton x done).symm))
    · intro y hy
      rcases List.mem_append.1 hy with h | h
      · have := hd y h; omega
      · simp at h; omega
    · rw [screens_append, screens_notify]
      simp [screens]
    · intro e he
      rcases List.mem_append.1 he with h | h
      · simp only [List.mem_cons, List.mem_singleton, List.not_mem_nil, or_false] at h
        rcases h with h | h | h | h | h | h <;> subst h <;> simp only [Event.okIn] <;> omega
      · exact notify_okIn width _ _ i j e h
  · rw [if_neg hx, update_screen_ok width _ _ i j hw]
    refine ⟨a, done ++ [x], [Event.read i, Event.read j] ++ Event.screen i j :: drawReads width,
      ?_, ?_, ?_, ?_, ?_⟩
    · simp
    · simp
    · intro y hy
      rcases List.mem_append.1 hy with h | h
      · exact hd y h
      · simp at h; omega
    · rw [screens_append, screens_notify]
      simp [screens]
    · intro e he
      rcases List.mem_append.1 he with h | h
      · simp only [List.mem_cons, List.mem_singleton, List.not_mem_nil, or_false] at h
        rcases h with h | h <;> subst h <;> simp only [Event.okIn] <;> omega
      · exact notify_okIn width _ _ i j e h

theorem bubble_inner_loop (width : Int) (pre : List Int) (i : Int) (hi : i = pre.length) :
    ∀ (todo done : List Int) (a : Int) (tr : List Event) (j : Int),
      width ≤ ((pre ++ a :: done ++ todo).length : Int) →
      j = (pre.length : Int) + 1 + done.length → (∀ y ∈ done, a ≤ y) →
      ∃ a2 done2 ev,
        forLoopAux (fun j m2 => bubbleInner width i j m2) todo.length j
            ⟨pre ++ a :: done ++ todo, tr⟩
          = .ok ⟨pre ++ a2 :: done2, tr ++ ev⟩ ∧
        (a2 :: done2).Perm (a :: done ++ todo) ∧ (∀ y ∈ done2, a2 ≤ y) ∧
        screens ev = (List.range todo.length).map (fun (t : Nat) => (i, j + (t : Int))) ∧
        ∀ e ∈ ev, e.okIn width i (j + todo.length) := by
  intro todo
  induction todo with
  | nil =>
    intro done a tr j _ _ hd
    exact ⟨a, done, [], by simp [forLoopAux], by simp, hd, by simp [screens], by simp⟩
  | cons x todo ih =>
    intro done a tr j hw hj hd
    obtain ⟨a1, done1, ev1, hstep, hperm1, hd1, hscr1, hok1⟩ :=
      bubbleInner_spec width pre done todo a x tr i j hw hi hj hd
    have hlen1 : done1.length = done.length + 1 := by
      have := hperm1.length_eq
      simp only [List.length_cons, List.length_append, List.length_nil] at this
      omega
    obtain ⟨a2, done2, ev2, hloop, hperm2, hd2, hscr2, hok2⟩ :=
      ih done1 a1 (tr ++ ev1) (j + 1)
        (by simp only [List.length_append, List.length_cons] at hw ⊢; omega) (by omega) hd1
    refine ⟨a2, done2, ev1 ++ ev2, ?_, ?_, hd2, ?_, ?_⟩
    · rw [List.length_cons, forLoopAux_succ _ _ _ _ _ hstep, hloop]
      simp
    · refine hperm2.trans ?_
      have h3 : (a1 :: done1 ++ todo).Perm ((a :: done ++ [x]) ++ todo) :=
        hperm1.append_right todo
      simpa using h3
    · rw [screens_append, hscr1, hscr2, List.length_cons, List.range_succ_eq_map]
      simp only [List.map_cons, List.map_map, List.singleton_append]
      congr 1
      · simp
      · apply List.map_congr_left
        intro t _
        simp only [Function.comp, Prod.mk.injEq, Nat.succ_eq_add_one, true_and]
        push_cast; omega
    · intro e he
      rcases List.mem_append.1 he with h | h
      · exact Event.okIn_mono (le_refl _) (by simp only [List.length_cons]; push_cast; omega)
          (hok1 e h)
      · exact Event.okIn_mono (le_refl _) (by simp only [List.length_cons]; push_cast; omega)
          (hok2 e h)

theorem bubble_pass (width : Int) (pre rest : List Int) (a : Int) (tr : List Event) (i : Int)
    (hi : i = pre.length) (hw : width = (pre.length : Int) + 1 + rest.length) :
    ∃ a2 rest2 ev,
      forLoop i width (fun j m2 => bubbleInner width i j m2) ⟨pre ++ a :: rest, tr⟩
        = .ok ⟨pre ++ a2 :: rest2, tr ++ ev⟩ ∧
      (a2 :: rest2).Perm (a :: rest) ∧ (∀ y ∈ rest2, a2 ≤ y) ∧
      screens ev = (List.range (rest.length + 1)).map (fun (t : Nat) => (i, i + (t : Int))) ∧
      ∀ e ∈ ev, e.okIn width i width := by
  have hn : (width - i).toNat = rest.length + 1 := by omega
  obtain ⟨a2, rest2, ev, hloop, hperm, hd, hscr, hok⟩ :=
    bubble_inner_loop width pre i hi rest [] a
      (tr ++ ([Event.read i, Event.read i] ++ Event.screen i i :: drawReads width)) (i + 1)
      (by simp only [List.length_append, List.length_cons, List.length_nil]; omega)
      (by simp only [List.length_nil]; omega) (by simp)
  have hwl : width ≤ ((pre ++ a :: rest).length : Int) := by
    simp only [List.length_append, List.length_cons]; omega
  refine ⟨a2, rest2, ([Event.read i, Event.read i] ++ Event.screen i i :: drawReads width) ++ ev,
    ?_, ?_, hd, ?_, ?_⟩
  · unfold forLoop
    rw [hn, forLoopAux_succ _ _ _ _ _ (bubbleInner_self width pre rest a tr i hwl hi)]
    have e1 : pre ++ a :: rest = pre ++ a :: [] ++ rest := by simp
    rw [e1, hloop]
    simp
  · simpa using hperm
  · rw [screens_append, screens_append, screens_notify, hscr, List.range_succ_eq_map]
    simp only [screens, List.map_cons, List.map_map, List.singleton_append, List.nil_append]
    congr 1
    · simp
    · apply List.map_congr_left
      intro t _
      simp only [Function.comp, Prod.mk.injEq, Nat.succ_eq_add_one, true_and]
      push_cast; omega
  · intro e he
    rcases List.mem_append.1 he with h | h
    · rcases List.mem_append.1 h with h | h
      · simp only [List.mem_cons, List.mem_singleton, List.not_mem_nil, or_false] at h
        rcases h with h | h <;> subst h <;> simp only [Event.okIn] <;> omega
      · exact notify_okIn width _ _ i i e h
    · exact Event.okIn_mono (le_refl _) (by omega) (hok e h)

theorem bubble_outer_loop (width : Int) :
    ∀ (n : Nat) (pre rest : List Int) (tr : List Event) (i : Int),
      rest.length = n → i = pre.length → width = (pre.length : Int) + rest.length →
      pre.Sorted (· ≤ ·) → (∀ a ∈ pre, ∀ b ∈ rest, a ≤ b) →
      ∃ out ev,
        forLoopAux (fun i m1 => forLoop i width (fun j m2 => bubbleInner width i j m2) m1) n i
            ⟨pre ++ rest, tr⟩
          = .ok ⟨out, tr ++ ev⟩ ∧
        out.Perm (pre ++ rest) ∧ out.Sorted (· ≤ ·) ∧
        screens ev = (List.range' pre.length n).flatMap
          (fun (s : Nat) => (List.range' s (pre.length + n - s)).map
            (fun (t : Nat) => ((s : Int), (t : Int)))) ∧
        ∀ e ∈ ev, e.okIn width 0 width := by
  intro n
  induction n with
  | zero =>
    intro pre rest tr i hn _ _ hsorted _
    have hr : rest = [] := List.length_eq_zero.1 hn
    subst hr
    exact ⟨pre, [], by simp [forLoopAux], by simp, hsorted, by simp [screens], by simp⟩
  | succ n ih =>
    intro pre rest tr i hn hi hw hsorted hle
    cases rest with
    | nil => simp at hn
    | cons a rest =>
      simp only [List.length_cons] at hn hw
      obtain ⟨a2, rest2, ev1, hpass, hperm1, hd1, hscr1, hok1⟩ :=
        bubble_pass width pre rest a tr i hi (by push_cast at hw; omega)
      have hlen2 : rest2.length = n := by
        have := hperm1.length_eq
        simp only [List.length_cons] at this
        omega
      have ha2 : a2 ∈ a :: rest := hperm1.subset (List.mem_cons_self _ _)
      have hsub : ∀ b ∈ rest2, b ∈ a :: rest := fun b hb =>
        hperm1.subset (List.mem_cons_of_mem _ hb)
      have e1 : pre ++ a2 :: rest2 = (pre ++ [a2]) ++ rest2 := by simp
      rw [e1] at hpass
      obtain ⟨out, ev2, hloop, hperm2, hsorted2, hscr2, hok2⟩ :=
        ih (pre ++ [a2]) rest2 (tr ++ ev1) (i + 1) hlen2
          (by simp only [List.length_append, List.length_cons, List.length_nil]; omega)
          (by simp only [List.length_append, List.length_cons, List.length_nil]
              push_cast at hw ⊢; omega)
          (by
            refine List.pairwise_append.2 ⟨hsorted, List.sorted_singleton a2, ?_⟩
            intro x hx y hy
            simp only [List.mem_singleton] at hy
            subst hy
            exact hle x hx _ ha2)
          (by
            intro x hx y hy
            rcases List.mem_append.1 hx with h | h
            · exact hle x h y (hsub y hy)
            · simp only [List.mem_singleton] at h
              subst h
              exact hd1 y hy)
      refine ⟨out, ev1 ++ ev2, ?_, ?_, hsorted2, ?_, ?_⟩
      · rw [forLoopAux_succ (fun i m1 => forLoop i width (fun j m2 => bubbleInner width i j m2) m1)
          n i _ _ hpass, hloop]
        simp
      · refine hperm2.trans ?_
        rw [← e1]
        exact List.Perm.append_left pre hperm1
      · rw [screens_append, hscr1, hscr2, List.range'_succ, List.flatMap_cons]
        congr 1
        · have h0 : pre.length + (n + 1) - pre.length = rest.length + 1 := by omega
          rw [h0, List.range'_eq_map_range, List.map_map]
          apply List.map_congr_left
          intro t _
          simp only [Function.comp, Prod.mk.injEq]
          subst hi
          constructor
          · trivial
          · push_cast; ring
        · simp only [List.length_append, List.length_cons, List.length_nil]
          apply List.flatMap_congr
          intro s _
          have h0 : pre.length + (0 + 1) + n - s = pre.length + (n + 1) - s := by omega
          rw [h0]
      · intro e he
        rcases List.mem_append.1 he with h | h
        · exact Event.okIn_mono (by omega) (le_refl _) (hok1 e h)
        · exact hok2 e h

/-! ## From decomposed arrays to indices -/

theorem split_at (arr : List Int) (s n : Nat) :
    arr = arr.take s ++ (arr.drop s).take n ++ arr.drop (s + n) := by
  rw [List.append_assoc, ← List.drop_drop, List.take_append_drop, List.take_append_drop]

theorem split_pivot (arr : List Int) (s e : Nat) (h1 : s ≤ e) (h2 : e < arr.length) :
    arr = arr.take s ++ (arr.drop s).take (e - s) ++ arr.getD e 0 :: arr.drop (e + 1) := by
  have h3 : arr.drop (s + (e - s)) = arr.getD e 0 :: arr.drop (e + 1) := by
    have h4 : s + (e - s) = e := by omega
    rw [h4, List.getD_eq_getElem _ _ h2]
    exact List.drop_eq_getElem_cons h2
  rw [← h3]
  exact split_at arr s (e - s)

theorem sorted_adjacent (l : List Int) (h : l.Sorted (· ≤ ·)) (k : Nat) (hk : k + 1 < l.length) :
    l.getD k 0 ≤ l.getD (k + 1) 0 := by
  rw [List.getD_eq_getElem _ _ (by omega), List.getD_eq_getElem _ _ hk]
  exact List.pairwise_iff_getElem.1 h k (k + 1) (by omega) hk (by omega)

theorem getD_mem_mid (A B C : List Int) (k : Nat) (h1 : A.length ≤ k)
    (h2 : k < A.length + B.length) : (A ++ B ++ C).getD k 0 ∈ B := by
  rw [List.getD_append _ _ _ _ (by simp only [List.length_append]; omega),
    List.getD_append_right _ _ _ _ h1, List.getD_eq_getElem _ _ (by omega)]
  exact List.getElem_mem _

theorem partition_at (width : Int) (m : Machine) (start end_ : Int)
    (hw : width ≤ m.arr.length) (h0 : 0 ≤ start) (h1 : start ≤ end_)
    (h2 : end_ < m.arr.length) :
    ∃ l r ev,
      partition width m start end_
        = .ok (start + (((m.arr.drop start.toNat).take (end_ - start).toNat).countP
                (· < m.arr.getD end_.toNat 0) : Nat),
            ⟨m.arr.take start.toNat ++ l ++ m.arr.getD end_.toNat 0 :: r
                ++ m.arr.drop (end_.toNat + 1),
              m.trace ++ (Event.call start end_ :: Event.read end_ :: ev) ++
                [Event.read (start + (((m.arr.drop start.toNat).take (end_ - start).toNat).countP
                    (· < m.arr.getD end_.toNat 0) : Nat)), Event.read end_,
                  Event.write (start + (((m.arr.drop start.toNat).take
                    (end_ - start).toNat).countP (· < m.arr.getD end_.toNat 0) : Nat)),
                  Event.write end_]⟩) ∧
      l.length = ((m.arr.drop start.toNat).take (end_ - start).toNat).countP
        (· < m.arr.getD end_.toNat 0) ∧
      l.length + r.length = (end_ - start).toNat ∧
      (l ++ r).Perm ((m.arr.drop start.toNat).take (end_ - start).toNat) ∧
      (∀ y ∈ l, y < m.arr.getD end_.toNat 0) ∧ (∀ y ∈ r, m.arr.getD end_.toNat 0 ≤ y) ∧
      screens ev = (List.range (end_ - start).toNat).map
        (fun t => (start - 1 + (((m.arr.drop start.toNat).take (t + 1)).countP
            (· < m.arr.getD end_.toNat 0) : Nat), start + (t : Int))) ∧
      ∀ e ∈ ev, e.okIn width start end_ := by
  have hs : start.toNat ≤ end_.toNat := by omega
  have he : end_.toNat < m.arr.length := by omega
  have hsplit := split_pivot m.arr start.toNat end_.toNat hs he
  have hn : end_.toNat - start.toNat = (end_ - start).toNat := by omega
  rw [hn] at hsplit
  have hprelen : (m.arr.take start.toNat).length = start.toNat := by
    rw [List.length_take]; omega
  have hmidlen : ((m.arr.drop start.toNat).take (end_ - start).toNat).length
      = (end_ - start).toNat := by
    rw [List.length_take, List.length_drop]; omega
  obtain ⟨l, r, ev, hpart, hlen, hsum, hperm, hl, hr, hscr, hok⟩ :=
    partition_decomp width (m.arr.take start.toNat)
      ((m.arr.drop start.toNat).take (end_ - start).toNat)
      (m.arr.drop (end_.toNat + 1)) (m.arr.getD end_.toNat 0) m.trace start end_ _
      (by rw [← hsplit]; exact hw) (by rw [hprelen]; omega) (by rw [hprelen, hmidlen]; omega) rfl
  rw [← hsplit] at hpart
  refine ⟨l, r, ev, hpart, hlen, by rw [hsum, hmidlen], hperm, hl, hr, ?_, hok⟩
  rw [hscr, hmidlen]
  apply List.map_congr_left
  intro t ht
  have ht2 : t < (end_ - start).toNat := List.mem_range.1 ht
  rw [List.take_take, min_eq_left (by omega)]

/-! ## `randint` -/

theorem randintLoop_spec (end_ : Int) :
    ∀ (draws : List Int) (r : Int) (rest : List Int),
      randintLoop end_ draws = .ok (r, rest) ↔
        ∃ skipped, draws = skipped ++ r :: rest ∧ (∀ s ∈ skipped, end_ ≤ s) ∧ r < end_ := by
  intro draws
  induction draws with
  | nil =>
    intro r rest
    simp [randintLoop]
  | cons d ds ih =>
    intro r rest
    unfold randintLoop
    by_cases hd : d ≥ end_
    · rw [if_pos hd, ih]
      constructor
      · rintro ⟨sk, h1, h2, h3⟩
        refine ⟨d :: sk, by simp [h1], ?_, h3⟩
        intro s hs
        rcases List.mem_cons.1 hs with h | h
        · omega
        · exact h2 s h
      · rintro ⟨sk, h1, h2, h3⟩
        cases sk with
        | nil =>
          simp only [List.nil_append, List.cons.injEq] at h1
          omega
        | cons s0 sk =>
          simp only [List.cons_append, List.cons.injEq] at h1
          exact ⟨sk, h1.2, fun s hs => h2 s (List.mem_cons_of_mem _ hs), h3⟩
    · rw [if_neg hd]
      constructor
      · intro h
        simp only [Except.ok.injEq, Prod.mk.injEq] at h
        refine ⟨[], by simp [h.1, h.2], by simp, by omega⟩
      · rintro ⟨sk, h1, h2, h3⟩
        cases sk with
        | nil =>
          simp only [List.nil_append, List.cons.injEq] at h1
          simp [h1.1, h1.2]
        | cons s0 sk =>
          simp only [List.cons_append, List.cons.injEq] at h1
          have := h2 s0 (List.mem_cons_self _ _)
          omega

theorem randintLoop_stops (end_ : Int) :
    ∀ (draws : List Int), (∃ d ∈ draws, d < end_) →
      ∃ r rest, randintLoop end_ draws = .ok (r, rest) := by
  intro draws
  induction draws with
  | nil => simp
  | cons d ds ih =>
    intro h
    unfold randintLoop
    by_cases hd : d ≥ end_
    · rw [if_pos hd]
      apply ih
      obtain ⟨x, hx, hlt⟩ := h
      rcases List.mem_cons.1 hx with h1 | h1
      · omega
      · exact ⟨x, h1, hlt⟩
    · rw [if_neg hd]
      exact ⟨d, ds, rfl⟩

theorem randintEnd_nat (R n : Nat) : randintEnd R n = ((R / n * n : Nat) : Int) := by
  unfold randintEnd
  rw [Int.tdiv_eq_ediv (Int.natCast_nonneg _) (Int.natCast_nonneg _)]
  push_cast
  rfl

theorem randintEnd_bounds (RAND_MAX n : Int) (h1 : 1 ≤ n) (h2 : n ≤ RAND_MAX) :
    0 < randintEnd RAND_MAX n ∧ n ≤ randintEnd RAND_MAX n ∧ randintEnd RAND_MAX n ≤ RAND_MAX ∧
      n ∣ randintEnd RAND_MAX n ∧ randintEnd RAND_MAX n = RAND_MAX / n * n := by
  have hq : RAND_MAX.tdiv n = RAND_MAX / n := Int.tdiv_eq_ediv (by omega) (by omega)
  have hpos : 1 ≤ RAND_MAX / n := by
    have := Int.ediv_le_ediv (by omega : 0 < n) h2
    rwa [Int.ediv_self (by omega)] at this
  have hle : RAND_MAX / n * n ≤ RAND_MAX := Int.ediv_mul_le _ (by omega)
  unfold randintEnd
  rw [hq]
  refine ⟨?_, ?_, hle, Dvd.intro_left _ rfl, rfl⟩
  · nlinarith
  · nlinarith

theorem randintOut_lt (R n r : Nat) (h1 : 1 ≤ n) (h2 : n ≤ R) :
    randintOut R n r = if r < R / n * n then some (((r % n : Nat) : Int)) else none := by
  have hne : ¬ ((n : Int) - 1 = (R : Int)) := by omega
  have hn0 : ¬ ((n : Int) = 0) := by omega
  unfold randintOut randint
  rw [if_neg hne, if_neg hn0, randintEnd_nat]
  unfold randintLoop
  by_cases hr : r < R / n * n
  · have hr2 : ¬ ((r : Int) ≥ ((R / n * n : Nat) : Int)) := by omega
    rw [if_neg hr2, if_pos hr]
    simp only [Option.some.injEq]
    rw [Int.tmod_eq_emod (Int.natCast_nonneg _) (Int.natCast_nonneg _)]
    push_cast
    rfl
  · have hr2 : (r : Int) ≥ ((R / n * n : Nat) : Int) := by omega
    rw [if_pos hr2, if_neg hr]
    rfl

theorem randintOut_full (R r : Nat) : randintOut R ((R : Int) + 1) r = some (r : Int) := by
  unfold randintOut randint
  simp

theorem filter_mod_block (n k a : Nat) (hk : k < n) (ha : a % n = 0) :
    (((List.range n).map (a + ·)).filter (fun r => r % n = k)).length = 1 := by
  rw [List.filter_map, List.length_map]
  have h : (List.range n).filter ((fun r => decide (r % n = k)) ∘ (a + ·))
      = (List.range n).filter (· == k) := by
    apply List.filter_congr
    intro x hx
    have hx2 : x < n := List.mem_range.1 hx
    have h3 : (a + x) % n = x := by
      rw [Nat.add_mod, ha, zero_add, Nat.mod_mod, Nat.mod_eq_of_lt hx2]
    simp only [Function.comp, h3]
    by_cases hxk : x = k <;> simp [hxk]
  rw [h, ← List.countP_eq_length_filter]
  exact List.count_eq_one_of_mem (List.nodup_range n) (List.mem_range.2 hk)

theorem filter_mod_count (n k : Nat) (hk : k < n) :
    ∀ q : Nat, ((List.range (q * n)).filter (fun r => r % n = k)).length = q := by
  intro q
  induction q with
  | zero => simp
  | succ q ih =>
    have h : (q + 1) * n = q * n + n := by ring
    rw [h, List.range_add, List.filter_append, List.length_append, ih,
      filter_mod_block n k (q * n) hk (Nat.mul_mod_left q n)]

theorem randint_preimages (R n k : Nat) (h1 : 1 ≤ n) (h2 : n ≤ R) (hk : k < n) :
    ((List.range (R + 1)).filter (fun (r : Nat) => randintOut R n r = some (k : Int))).length
      = R / n := by
  have hle : R / n * n ≤ R := Nat.div_mul_le_self R n
  have hsplit : R + 1 = R / n * n + (R + 1 - R / n * n) := by omega
  rw [hsplit, List.range_add, List.filter_append, List.length_append]
  have ha : (List.range (R / n * n)).filter (fun (r : Nat) => randintOut R n r = some (k : Int))
      = (List.range (R / n * n)).filter (fun r => r % n = k) := by
    apply List.filter_congr
    intro x hx
    have hx2 : x < R / n * n := List.mem_range.1 hx
    rw [randintOut_lt R n x h1 h2, if_pos hx2]
    simp only [Option.some.injEq, Nat.cast_inj]
  have hb : ((List.range (R + 1 - R / n * n)).map (R / n * n + ·)).filter
      (fun (r : Nat) => randintOut R n r = some (k : Int)) = [] := by
    rw [List.filter_eq_nil_iff]
    intro x hx
    obtain ⟨y, -, hy⟩ := List.mem_map.1 hx
    have hx2 : ¬ x < R / n * n := by omega
    rw [randintOut_lt R n x h1 h2, if_neg hx2]
    simp
  rw [ha, hb, filter_mod_count n k hk]
  simp

theorem randint_preimages_full (R k : Nat) (hk : k ≤ R) :
    ((List.range (R + 1)).filter
      (fun (r : Nat) => randintOut R ((R : Int) + 1) r = some (k : Int))).length = 1 := by
  have h : (List.range (R + 1)).filter
      (fun (r : Nat) => randintOut R ((R : Int) + 1) r = some (k : Int))
      = (List.range (R + 1)).filter (· == k) := by
    apply List.filter_congr
    intro x _
    rw [randintOut_full]
    by_cases hxk : x = k <;> simp [hxk]
  rw [h, ← List.countP_eq_length_filter]
  exact List.count_eq_one_of_mem (List.nodup_range _) (List.mem_range.2 (by omega))

theorem decomp_facts (arr pre mid post : List Int) (s n : Nat) (h : arr = pre ++ mid ++ post)
    (hs : pre.length = s) (hn : mid.length = n) :
    arr.take s = pre ∧ (arr.drop s).take n = mid ∧ arr.drop (s + n) = post := by
  subst h
  refine ⟨?_, ?_, ?_⟩
  · rw [List.append_assoc]
    exact List.take_left' hs
  · rw [List.append_assoc, List.drop_left' hs]
    exact List.take_left' hn
  · exact List.drop_left' (by rw [List.length_append, hs, hn])

theorem pairs_length (n : Nat) : ∀ i0 : Nat,
    ((List.range' i0 n).flatMap
      (fun (s : Nat) => (List.range' s (i0 + n - s)).map
        (fun (t : Nat) => ((s : Int), (t : Int))))).length * 2 = n * (n + 1) := by
  induction n with
  | zero => intro i0; simp
  | succ n ih =>
    intro i0
    rw [List.range'_succ, List.flatMap_cons, List.length_append, List.length_map,
      List.length_range']
    have h : (List.range' (i0 + 1) n).flatMap
        (fun (s : Nat) => (List.range' s (i0 + (n + 1) - s)).map
          (fun (t : Nat) => ((s : Int), (t : Int))))
        = (List.range' (i0 + 1) n).flatMap
        (fun (s : Nat) => (List.range' s (i0 + 1 + n - s)).map
          (fun (t : Nat) => ((s : Int), (t : Int)))) := by
      apply List.flatMap_congr
      intro s _
      have h0 : i0 + (n + 1) - s = i0 + 1 + n - s := by omega
      rw [h0]
    have h2 := ih (i0 + 1)
    rw [h]
    have h3 : i0 + (n + 1) - i0 = n + 1 := by omega
    rw [h3]
    nlinarith

theorem bubblePairs_length (N : Nat) : (bubblePairs N).length = N * (N + 1) / 2 := by
  have h := pairs_length N 0
  unfold bubblePairs
  rw [List.range_eq_range']
  simp only [zero_add] at h
  omega

theorem bubblePairs_three :
    bubblePairs 3 = [(0, 0), (0, 1), (0, 2), (1, 1), (1, 2), (2, 2)] := by
  decide

/-! ## The claims -/

/-- Claim C1: on every array of length N ≥ 1, `quick_sort(arr, 0, N-1)` returns (the
recursion never goes deeper than N - 1), the array it leaves is non-decreasing
(`arr[k] <= arr[k+1]` for all `0 <= k < N-1`) and it is a permutation of the initial
array. The global `C.width`, which `draw_state` reads up to, is at most N (in `main` it
is N). -/
theorem quick_sort_sorts (width : Int) (m : Machine) (fuel : Nat) (_hN : 1 ≤ m.arr.length)
    (hw : width ≤ m.arr.length) (hf : m.arr.length ≤ fuel + 1) :
    ∃ m2, quick_sort width fuel m 0 ((m.arr.length : Int) - 1) = .ok m2 ∧
      (∀ k : Nat, k + 1 < m.arr.length → m2.arr.getD k 0 ≤ m2.arr.getD (k + 1) 0) ∧
      m2.arr.Sorted (· ≤ ·) ∧ m2.arr.Perm m.arr ∧ m2.arr.length = m.arr.length := by
  obtain ⟨out, ev, hq, hperm, hsorted, -⟩ :=
    quick_sort_decomp width fuel [] m.arr [] m.trace 0 ((m.arr.length : Int) - 1)
      (by simpa using hw) (by simp) (by simp) hf
  simp only [List.nil_append, List.append_nil] at hq
  refine ⟨_, hq, ?_, hsorted, hperm, hperm.length_eq⟩
  intro k hk
  exact sorted_adjacent out hsorted k (by rw [hperm.length_eq]; exact hk)

/-- Witness of C1 on `[5, 3, 4, 1, 2]`, with the runs on `[5, 3, 4, 1, 2]` and on
`[1, 2, 2, 1]`. -/
theorem quick_sort_sorts_witness :
    (1 ≤ [(5 : Int), 3, 4, 1, 2].length ∧ (5 : Int) ≤ ([(5 : Int), 3, 4, 1, 2].length : Nat) ∧
      [(5 : Int), 3, 4, 1, 2].length ≤ 4 + 1) ∧
    (∃ m2, quick_sort 5 4 ⟨[5, 3, 4, 1, 2], []⟩ 0 4 = .ok m2 ∧
      (∀ k : Nat, k + 1 < 5 → m2.arr.getD k 0 ≤ m2.arr.getD (k + 1) 0) ∧
      m2.arr.Sorted (· ≤ ·) ∧ m2.arr.Perm [5, 3, 4, 1, 2] ∧ m2.arr.length = 5) ∧
    Except.map Machine.arr (quick_sort 5 4 ⟨[5, 3, 4, 1, 2], []⟩ 0 4) = .ok [1, 2, 3, 4, 5] ∧
    Except.map Machine.arr (quick_sort 4 3 ⟨[1, 2, 2, 1], []⟩ 0 3) = .ok [1, 1, 2, 2] :=
  ⟨⟨by decide, by decide, by decide⟩,
    quick_sort_sorts 5 ⟨[5, 3, 4, 1, 2], []⟩ 4 (by decide) (by decide) (by decide),
    by simp [quick_sort, partition, forLoop, forLoopAux, partitionStep, swap, arrRead,
      arrWrite, update_screen_ok, Except.map],
    by simp [quick_sort, partition, forLoop, forLoopAux, partitionStep, swap, arrRead,
      arrWrite, update_screen_ok, Except.map]⟩

/-- Claim C2: on every array of length N ≥ 1, with `C.width = N`, `bubble_sort(arr)`
returns, the array it leaves is non-decreasing and it is a permutation of the initial
array. -/
theorem bubble_sort_sorts (m : Machine) (width : Int) (hN : 1 ≤ m.arr.length)
    (hw : width = m.arr.length) :
    ∃ m2, bubble_sort width m = .ok m2 ∧
      (∀ k : Nat, k + 1 < m.arr.length → m2.arr.getD k 0 ≤ m2.arr.getD (k + 1) 0) ∧
      m2.arr.Sorted (· ≤ ·) ∧ m2.arr.Perm m.arr ∧ m2.arr.length = m.arr.length := by
  obtain ⟨out, ev, hb, hperm, hsorted, -⟩ :=
    bubble_outer_loop width m.arr.length [] m.arr m.trace 0 rfl (by simp) (by simp [hw])
      List.sorted_nil (by simp)
  simp only [List.nil_append] at hb hperm
  have hn : (width - 0).toNat = m.arr.length := by omega
  refine ⟨⟨out, m.trace ++ ev⟩, ?_, ?_, hsorted, hperm, hperm.length_eq⟩
  · unfold bubble_sort forLoop
    rw [hn]
    exact hb
  · intro k hk
    exact sorted_adjacent out hsorted k (by rw [hperm.length_eq]; exact hk)

/-- Witness of C2 on `[5, 3, 4, 1, 2]`, with the run on it. -/
theorem bubble_sort_sorts_witness :
    (1 ≤ [(5 : Int), 3, 4, 1, 2].length ∧ (5 : Int) = ([(5 : Int), 3, 4, 1, 2].length : Nat)) ∧
    (∃ m2, bubble_sort 5 ⟨[5, 3, 4, 1, 2], []⟩ = .ok m2 ∧
      (∀ k : Nat, k + 1 < 5 → m2.arr.getD k 0 ≤ m2.arr.getD (k + 1) 0) ∧
      m2.arr.Sorted (· ≤ ·) ∧ m2.arr.Perm [5, 3, 4, 1, 2] ∧ m2.arr.length = 5) ∧
    Except.map Machine.arr (bubble_sort 5 ⟨[5, 3, 4, 1, 2], []⟩) = .ok [1, 2, 3, 4, 5] :=
  ⟨⟨by decide, by decide⟩,
    bubble_sort_sorts ⟨[5, 3, 4, 1, 2], []⟩ 5 (by decide) (by decide),
    by simp [bubble_sort, bubbleInner, forLoop, forLoopAux, swap, arrRead, arrWrite,
      update_screen_ok, Except.map]⟩

/-- Claim C5: on every array of length N ≥ 0, `bubble_sort` returns and the notifications
it issues are exactly the pairs `(i, j)` for `i = 0..N-1` and `j = i..N-1` in lexicographic
order, `N*(N+1)/2` of them; the list depends on N only, not on the contents. -/
theorem bubble_sort_notifications (m : Machine) :
    ∃ m2, bubble_sort m.arr.length m = .ok m2 ∧
      screens m2.trace = screens m.trace ++ bubblePairs m.arr.length ∧
      (bubblePairs m.arr.length).length = m.arr.length * (m.arr.length + 1) / 2 := by
  obtain ⟨out, ev, hb, -, -, hscr, -⟩ :=
    bubble_outer_loop m.arr.length m.arr.length [] m.arr m.trace 0 rfl (by simp) (by simp)
      List.sorted_nil (by simp)
  simp only [List.nil_append] at hb
  have hn : ((m.arr.length : Int) - 0).toNat = m.arr.length := by omega
  refine ⟨⟨out, m.trace ++ ev⟩, ?_, ?_, bubblePairs_length _⟩
  · unfold bubble_sort forLoop
    rw [hn]
    exact hb
  · rw [screens_append, hscr]
    unfold bubblePairs
    rw [List.range_eq_range']
    simp

/-- Claim C6: for `0 <= start <= end < N`, `partition(arr, start, end)` returns
`p = start + #{k in [start, end) : arr[k] < arr[end]}` with `start <= p <= end`; afterwards
`arr[p]` is the pivot (the initial `arr[end]`), the elements at `start..p-1` are below it,
those at `p+1..end` are not, the range `start..end` is a permutation of its initial
contents and the rest of the array is unchanged. The global `C.width` is at most N. -/
theorem partition_correct (width : Int) (m : Machine) (start end_ : Int)
    (hw : width ≤ m.arr.length) (h0 : 0 ≤ start) (h1 : start ≤ end_)
    (h2 : end_ < m.arr.length) :
    ∃ p m2, partition width m start end_ = .ok (p, m2) ∧ start ≤ p ∧ p ≤ end_ ∧
      p = start + (((m.arr.drop start.toNat).take (end_ - start).toNat).countP
        (· < m.arr.getD end_.toNat 0) : Nat) ∧
      m2.arr.getD p.toNat 0 = m.arr.getD end_.toNat 0 ∧
      (∀ k : Int, start ≤ k → k < p → m2.arr.getD k.toNat 0 < m2.arr.getD p.toNat 0) ∧
      (∀ k : Int, p < k → k ≤ end_ → m2.arr.getD p.toNat 0 ≤ m2.arr.getD k.toNat 0) ∧
      ((m2.arr.drop start.toNat).take (end_ - start + 1).toNat).Perm
        ((m.arr.drop start.toNat).take (end_ - start + 1).toNat) ∧
      m2.arr.take start.toNat = m.arr.take start.toNat ∧
      m2.arr.drop (end_ + 1).toNat = m.arr.drop (end_ + 1).toNat ∧
      m2.arr.length = m.arr.length := by
  obtain ⟨l, r, ev, hpart, hlen, hsum, hperm, hl, hr, -, -⟩ :=
    partition_at width m start end_ hw h0 h1 h2
  have hs : start.toNat ≤ end_.toNat := by omega
  have he : end_.toNat < m.arr.length := by omega
  have hsplit := split_pivot m.arr start.toNat end_.toNat hs he
  have hn : end_.toNat - start.toNat = (end_ - start).toNat := by omega
  rw [hn] at hsplit
  have hprelen : (m.arr.take start.toNat).length = start.toNat := by
    rw [List.length_take]; omega
  have hmidlen : ((m.arr.drop start.toNat).take (end_ - start).toNat).length
      = (end_ - start).toNat := by
    rw [List.length_take, List.length_drop]; omega
  have hc : ((m.arr.drop start.toNat).take (end_ - start).toNat).countP
      (· < m.arr.getD end_.toNat 0) ≤ (end_ - start).toNat := by
    rw [← hlen]; omega
  generalize hpre : m.arr.take start.toNat = pre at *
  generalize hmid : (m.arr.drop start.toNat).take (end_ - start).toNat = mid at *
  generalize hpiv : m.arr.getD end_.toNat 0 = pivot at *
  generalize hpost : m.arr.drop (end_.toNat + 1) = post at *
  generalize hp : start + ((mid.countP (· < pivot) : Nat) : Int) = p at *
  have hpn : p.toNat = pre.length + l.length := by omega
  have e1 : pre ++ l ++ pivot :: r ++ post = (pre ++ l) ++ pivot :: (r ++ post) := by simp
  have e2 : pre ++ l ++ pivot :: r ++ post = pre ++ l ++ (pivot :: r ++ post) := by simp
  have e3 : pre ++ l ++ pivot :: r ++ post = (pre ++ l ++ [pivot]) ++ r ++ post := by simp
  have e4 : pre ++ l ++ pivot :: r ++ post = pre ++ (l ++ pivot :: r) ++ post := by simp
  have e5 : pre ++ mid ++ pivot :: post = pre ++ (mid ++ [pivot]) ++ post := by simp
  have hn1 : (end_ - start + 1).toNat = (end_ - start).toNat + 1 := by omega
  have hn2 : (end_ + 1).toNat = start.toNat + ((end_ - start).toNat + 1) := by omega
  have hn3 : end_.toNat + 1 = start.toNat + ((end_ - start).toNat + 1) := by omega
  obtain ⟨f1, f2, f3⟩ := decomp_facts _ pre (l ++ pivot :: r) post start.toNat
    ((end_ - start).toNat + 1) e4 hprelen
    (by simp only [List.length_append, List.length_cons]; omega)
  obtain ⟨g1, g2, g3⟩ := decomp_facts m.arr pre (mid ++ [pivot]) post start.toNat
    ((end_ - start).toNat + 1) (by rw [← e5]; exact hsplit) hprelen
    (by simp only [List.length_append, List.length_cons, List.length_nil]; omega)
  have hpivot : (pre ++ l ++ pivot :: r ++ post).getD p.toNat 0 = pivot := by
    rw [e1, hpn, List.getD_append_right _ _ _ _ (by simp)]
    simp
  refine ⟨p, _, hpart, by omega, by omega, rfl, ?_, ?_, ?_, ?_, ?_, ?_, ?_⟩
  · exact hpivot
  · intro k hk1 hk2
    dsimp only
    rw [hpivot, e2]
    exact hl _ (getD_mem_mid pre l _ k.toNat (by omega) (by omega))
  · intro k hk1 hk2
    dsimp only
    rw [hpivot, e3]
    exact hr _ (getD_mem_mid (pre ++ l ++ [pivot]) r post k.toNat
      (by simp only [List.length_append, List.length_cons, List.length_nil]; omega)
      (by simp only [List.length_append, List.length_cons, List.length_nil]; omega))
  · dsimp only
    rw [hn1, f2, g2]
    exact List.perm_middle.trans
      ((List.Perm.cons pivot hperm).trans (List.perm_append_singleton pivot mid).symm)
  · dsimp only
    rw [f1]
  · dsimp only
    rw [hn2, f3, g3]
  · dsimp only
    rw [hsplit]
    simp only [List.length_append, List.length_cons]
    omega

/-- Claim C8: on an array of length N ≥ 1 with `C.width <= N` (in `main` it is N),
`bubble_sort(arr)` and `quick_sort(arr, 0, N-1)` return without an out-of-range access:
every read and write of `arr` made during the run, by the sorting code, by `swap` and by
`draw_state` inside `update_screen`, uses an index in `[0, N)`, and every call of
`partition` is on a range with `0 <= start <= end < N`; in a call
`partition(arr, start, end)` with `0 <= start <= end < N` the accesses of `partition` and
`swap` stay in `[start, end]`, so the boundary index `start - 1` is never used to index
`arr`, while `draw_state` reads the indices of `[0, C.width)`. -/
theorem sorts_stay_in_range (arr : List Int) (width : Int) (fuel : Nat) (start end_ : Int)
    (hN : 1 ≤ arr.length) (hw : width ≤ arr.length) (hf : arr.length ≤ fuel + 1)
    (h0 : 0 ≤ start) (h1 : start ≤ end_) (h2 : end_ < arr.length) :
    (∃ m2, bubble_sort arr.length ⟨arr, []⟩ = .ok m2 ∧
      ∀ e ∈ m2.trace, e.okIn arr.length 0 arr.length) ∧
    (∃ m2, quick_sort width fuel ⟨arr, []⟩ 0 ((arr.length : Int) - 1) = .ok m2 ∧
      ∀ e ∈ m2.trace, e.okIn arr.length 0 arr.length) ∧
    (∃ p m2, partition width ⟨arr, []⟩ start end_ = .ok (p, m2) ∧
      ∀ e ∈ m2.trace, e.okIn arr.length start (end_ + 1)) := by
  refine ⟨?_, ?_, ?_⟩
  · obtain ⟨out, ev, hb, -, -, -, hok⟩ :=
      bubble_outer_loop arr.length arr.length [] arr [] 0 rfl (by simp) (by simp)
        List.sorted_nil (by simp)
    simp only [List.nil_append] at hb
    have hn : ((arr.length : Int) - 0).toNat = arr.length := by omega
    refine ⟨⟨out, ev⟩, ?_, hok⟩
    unfold bubble_sort forLoop
    rw [hn]
    exact hb
  · obtain ⟨out, ev, hq, -, -, hok⟩ :=
      quick_sort_decomp width fuel [] arr [] [] 0 ((arr.length : Int) - 1)
        (by simpa using hw) (by simp) (by simp) hf
    simp only [List.nil_append, List.append_nil] at hq
    refine ⟨_, hq, ?_⟩
    intro e he
    exact Event.okIn_width hw (Event.okIn_mono (le_refl _) (by omega) (hok e he))
  · obtain ⟨l, r, ev, hpart, -, -, -, -, -, -, hok⟩ :=
      partition_at width ⟨arr, []⟩ start end_ hw h0 h1 h2
    have hc : ((arr.drop start.toNat).take (end_ - start).toNat).countP
        (· < arr.getD end_.toNat 0) ≤ (end_ - start).toNat :=
      (List.countP_le_length _).trans ((List.length_take_le _ _))
    refine ⟨_, _, hpart, ?_⟩
    intro e he
    simp only [List.nil_append, List.mem_append, List.mem_cons, List.mem_singleton,
      List.not_mem_nil, or_false] at he
    rcases he with (h | h | h) | (h | h | h | h)
    · subst h; simp only [Event.okIn]; omega
    · subst h; simp only [Event.okIn]; omega
    · exact Event.okIn_width hw (Event.okIn_mono (le_refl _) (by omega) (hok e h))
    · subst h; simp only [Event.okIn]; omega
    · subst h; simp only [Event.okIn]; omega
    · subst h; simp only [Event.okIn]; omega
    · subst h; simp only [Event.okIn]; omega

/-- Claim C9: `quick_sort(arr, start, end)` with `0 <= start` and `end < N` returns on every
array (fuel `end - start` is enough for the recursion depth); when `end <= start` it returns
at once and leaves the machine as it is; when `start < end`, `partition` returns `p` with
`start <= p <= end`, so both recursive ranges are strictly shorter. The global `C.width` is
at most N. -/
theorem quick_sort_terminates (width : Int) (m : Machine) (start end_ : Int) (fuel : Nat)
    (hw : width ≤ m.arr.length) (h0 : 0 ≤ start) (h2 : end_ < m.arr.length)
    (hf : (end_ - start).toNat ≤ fuel) :
    (∃ m2, quick_sort width fuel m start end_ = .ok m2) ∧
    (end_ ≤ start → ∀ fuel0, quick_sort width fuel0 m start end_ = .ok m) ∧
    (start < end_ → ∃ p m1, partition width m start end_ = .ok (p, m1) ∧ start ≤ p ∧
      p ≤ end_ ∧
      ((p - 1) - start + 1).toNat < (end_ - start + 1).toNat ∧
      (end_ - (p + 1) + 1).toNat < (end_ - start + 1).toNat) := by
  refine ⟨?_, fun h fuel0 => quick_sort_base width fuel0 m start end_ h, ?_⟩
  · by_cases hle : end_ ≤ start
    · exact ⟨m, quick_sort_base width fuel m start end_ hle⟩
    · have hsplit := split_at m.arr start.toNat (end_ - start + 1).toNat
      have hprelen : (m.arr.take start.toNat).length = start.toNat := by
        rw [List.length_take]; omega
      have hmidlen : ((m.arr.drop start.toNat).take (end_ - start + 1).toNat).length
          = (end_ - start + 1).toNat := by
        rw [List.length_take, List.length_drop]; omega
      obtain ⟨out, ev, hq, -, -, -⟩ :=
        quick_sort_decomp width fuel (m.arr.take start.toNat)
          ((m.arr.drop start.toNat).take (end_ - start + 1).toNat)
          (m.arr.drop (start.toNat + (end_ - start + 1).toNat)) m.trace start end_
          (by rw [← hsplit]; exact hw) (by rw [hprelen]; omega) (by rw [hprelen, hmidlen]; omega) (by rw [hmidlen]; omega)
      rw [← hsplit] at hq
      exact ⟨_, hq⟩
  · intro hlt
    obtain ⟨l, r, ev, hpart, hlen, hsum, -, -, -, -, -⟩ :=
      partition_at width m start end_ hw h0 (by omega) h2
    refine ⟨_, _, hpart, by omega, by omega, by omega, by omega⟩

/-- Claim C10: for `0 <= start <= end < N`, one call `partition(arr, start, end)` issues
exactly `end - start` notifications, the pairs `(i_j, j)` for `j = start..end-1` in
increasing `j` with `i_j = start - 1 + #{k in [start, j] : arr[k] < arr[end]}` (so
`start - 1 <= i_j <= j`), and its trace ends with the four accesses of the final swap, with
no notification after them; `quick_sort` on a single-element array leaves the trace as it
is. The global `C.width` is at most N. -/
theorem partition_notifications (width : Int) (m : Machine) (start end_ : Int) (fuel : Nat)
    (a : Int) (tr : List Event) (hw : width ≤ m.arr.length) (h0 : 0 ≤ start)
    (h1 : start ≤ end_) (h2 : end_ < m.arr.length) :
    (∃ p m2 evs, partition width m start end_ = .ok (p, m2) ∧
      m2.trace = m.trace ++ evs ++
        [Event.read p, Event.read end_, Event.write p, Event.write end_] ∧
      screens m2.trace = screens m.trace ++ screens evs ∧
      screens evs = (List.range (end_ - start).toNat).map
        (fun (t : Nat) => (start - 1 + (((m.arr.drop start.toNat).take (t + 1)).countP
            (· < m.arr.getD end_.toNat 0) : Nat), start + (t : Int))) ∧
      (screens evs).length = (end_ - start).toNat ∧
      ∀ q ∈ screens evs, start - 1 ≤ q.1 ∧ q.1 ≤ q.2 ∧ start ≤ q.2 ∧ q.2 < end_) ∧
    quick_sort width fuel ⟨[a], tr⟩ 0 0 = .ok ⟨[a], tr⟩ := by
  refine ⟨?_, quick_sort_base width fuel _ 0 0 (le_refl _)⟩
  obtain ⟨l, r, ev, hpart, -, -, -, -, -, hscr, -⟩ :=
    partition_at width m start end_ hw h0 h1 h2
  have hscr2 : screens (Event.call start end_ :: Event.read end_ :: ev) = screens ev := by
    simp [screens]
  refine ⟨_, _, Event.call start end_ :: Event.read end_ :: ev, hpart, rfl, ?_, ?_, ?_, ?_⟩
  · simp [screens_append, screens]
  · rw [hscr2, hscr]
  · rw [hscr2, hscr, List.length_map, List.length_range]
  · intro q hq
    rw [hscr2, hscr] at hq
    obtain ⟨t, ht, rfl⟩ := List.mem_map.1 hq
    have ht2 : t < (end_ - start).toNat := List.mem_range.1 ht
    have hc : ((m.arr.drop start.toNat).take (t + 1)).countP (· < m.arr.getD end_.toNat 0)
        ≤ t + 1 := (List.countP_le_length _).trans (List.length_take_le _ _)
    dsimp only
    omega

/-- Claim C3: for `1 <= n <= RAND_MAX + 1` and raw draws in `[0, RAND_MAX]`, `randint(n)`
returns as soon as the rejection loop can stop (a draw below `end` exists, or any draw when
`n - 1 == RAND_MAX`), and every value `r` it returns has `0 <= r < n`: the first draw itself
when `n - 1 == RAND_MAX`, and otherwise the first draw below `end = (RAND_MAX / n) * n`,
reduced mod `n`. -/
theorem randint_in_range (RAND_MAX n : Int) (draws : List Int) (hn1 : 1 ≤ n)
    (_hn2 : n ≤ RAND_MAX + 1) (hd : ∀ d ∈ draws, 0 ≤ d ∧ d ≤ RAND_MAX) :
    ((if n - 1 = RAND_MAX then draws ≠ [] else ∃ d ∈ draws, d < randintEnd RAND_MAX n) →
      ∃ r rest, randint RAND_MAX n draws = .ok (r, rest)) ∧
    ∀ r rest, randint RAND_MAX n draws = .ok (r, rest) →
      0 ≤ r ∧ r < n ∧
      (n - 1 = RAND_MAX → draws = r :: rest) ∧
      (n ≤ RAND_MAX → ∃ skipped d, draws = skipped ++ d :: rest ∧
        (∀ s ∈ skipped, randintEnd RAND_MAX n ≤ s) ∧ d < randintEnd RAND_MAX n ∧
        r = d % n) := by
  by_cases hfull : n - 1 = RAND_MAX
  · unfold randint
    rw [if_pos hfull, if_pos hfull]
    cases draws with
    | nil => simp
    | cons d ds =>
      refine ⟨fun _ => ⟨d, ds, rfl⟩, ?_⟩
      intro r rest h
      simp only [Except.ok.injEq, Prod.mk.injEq] at h
      obtain ⟨h3, h4⟩ := h
      subst h3 h4
      have := hd d (List.mem_cons_self _ _)
      exact ⟨by omega, by omega, fun _ => rfl, fun h5 => by omega⟩
  · have hn0 : ¬ n = 0 := by omega
    unfold randint
    rw [if_neg hfull, if_neg hfull, if_neg hn0]
    refine ⟨?_, ?_⟩
    · intro h
      obtain ⟨r, rest, hr⟩ := randintLoop_stops (randintEnd RAND_MAX n) draws h
      exact ⟨r.tmod n, rest, by rw [hr]⟩
    · intro r rest h
      cases hloop : randintLoop (randintEnd RAND_MAX n) draws with
      | error e => rw [hloop] at h; simp at h
      | ok v =>
        obtain ⟨d, rest2⟩ := v
        rw [hloop] at h
        simp only [Except.ok.injEq, Prod.mk.injEq] at h
        obtain ⟨h3, h4⟩ := h
        subst h4
        obtain ⟨sk, hsk, hall, hlt⟩ := (randintLoop_spec _ draws d rest2).1 hloop
        have hmem : d ∈ draws := by rw [hsk]; simp
        have hd0 := hd d hmem
        have hmod : d.tmod n = d % n := Int.tmod_eq_emod (by omega) (by omega)
        rw [hmod] at h3
        have hnn : 0 ≤ d % n := Int.emod_nonneg d (by omega)
        have hltn : d % n < n := Int.emod_lt_of_pos d (by omega)
        refine ⟨by omega, by omega, fun h5 => absurd h5 hfull, fun _ => ?_⟩
        exact ⟨sk, d, hsk, hall, hlt, h3.symm⟩

/-- Witness of C3 with `RAND_MAX = 32767`, `n = 149` and the raw draws `32700, 32631, 300`:
the first two are rejected (`end = 32631`) and `300 % 149 = 2` is returned. -/
theorem randint_in_range_witness :
    ((1 : Int) ≤ 149 ∧ (149 : Int) ≤ 32767 + 1 ∧
      ∀ d ∈ [(32700 : Int), 32631, 300], 0 ≤ d ∧ d ≤ 32767) ∧
    (((if (149 : Int) - 1 = 32767 then [(32700 : Int), 32631, 300] ≠ []
        else ∃ d ∈ [(32700 : Int), 32631, 300], d < randintEnd 32767 149) →
      ∃ r rest, randint 32767 149 [32700, 32631, 300] = .ok (r, rest)) ∧
    ∀ r rest, randint 32767 149 [32700, 32631, 300] = .ok (r, rest) →
      0 ≤ r ∧ r < 149 ∧
      ((149 : Int) - 1 = 32767 → [(32700 : Int), 32631, 300] = r :: rest) ∧
      ((149 : Int) ≤ 32767 → ∃ skipped d, [(32700 : Int), 32631, 300] = skipped ++ d :: rest ∧
        (∀ s ∈ skipped, randintEnd 32767 149 ≤ s) ∧ d < randintEnd 32767 149 ∧
        r = d % 149)) ∧
    randint 32767 149 [32700, 32631, 300] = .ok (2, []) :=
  ⟨⟨by decide, by decide, by decide⟩,
    randint_in_range 32767 149 [32700, 32631, 300] (by decide) (by decide) (by decide),
    by rfl⟩

/-- Claim C4: for `1 <= n <= RAND_MAX`, `end = (RAND_MAX / n) * n` is a positive multiple
of `n` with `n <= end <= RAND_MAX`, and every `k` in `[0, n)` is the value returned for
exactly `RAND_MAX / n` of the raw draws in `[0, RAND_MAX]`; for `n = RAND_MAX + 1` every
`k2` in `[0, RAND_MAX]` is the value returned for exactly one raw draw. -/
theorem randint_unbiased (R n k k2 : Nat) (h1 : 1 ≤ n) (h2 : n ≤ R) (hk : k < n)
    (hk2 : k2 ≤ R) :
    (0 < randintEnd R n ∧ (n : Int) ≤ randintEnd R n ∧ randintEnd R n ≤ R ∧
      (n : Int) ∣ randintEnd R n ∧ randintEnd R n = (R : Int) / n * n) ∧
    ((List.range (R + 1)).filter
      (fun (r : Nat) => randintOut R n r = some (k : Int))).length = R / n ∧
    ((List.range (R + 1)).filter
      (fun (r : Nat) => randintOut R ((R : Int) + 1) r = some (k2 : Int))).length = 1 :=
  ⟨randintEnd_bounds R n (by omega) (by omega), randint_preimages R n k h1 h2 hk,
    randint_preimages_full R k2 hk2⟩

/-- Witness of C4 with `RAND_MAX = 10`, `n = 3`: `end = 9` and each of 0, 1, 2 has three
accepted raw draws. -/
theorem randint_unbiased_witness :
    (1 ≤ 3 ∧ 3 ≤ 10 ∧ 2 < 3 ∧ 7 ≤ 10) ∧
    (0 < randintEnd (10 : Nat) (3 : Nat) ∧ ((3 : Nat) : Int) ≤ randintEnd (10 : Nat) (3 : Nat) ∧
      randintEnd (10 : Nat) (3 : Nat) ≤ (10 : Nat) ∧
      ((3 : Nat) : Int) ∣ randintEnd (10 : Nat) (3 : Nat) ∧
      randintEnd (10 : Nat) (3 : Nat) = ((10 : Nat) : Int) / (3 : Nat) * (3 : Nat)) ∧
    ((List.range (10 + 1)).filter
      (fun (r : Nat) => randintOut (10 : Nat) (3 : Nat) r = some ((2 : Nat) : Int))).length
        = 10 / 3 ∧
    ((List.range (10 + 1)).filter
      (fun (r : Nat) => randintOut (10 : Nat) (((10 : Nat) : Int) + 1) r
        = some ((7 : Nat) : Int))).length = 1 :=
  ⟨⟨by decide, by decide, by decide, by decide⟩,
    randint_unbiased 10 3 2 7 (by decide) (by decide) (by decide) (by decide)⟩

/-- Claim C7, evaluated at the height 1: the check of `-h 1` accepts the height, the bound
handed to `randint` is `C.height - 1 = 0`, and filling the array stops at its first
`randint(0)` with the division `RAND_MAX / 0`. -/
theorem height_one_divides_by_zero :
    optHeight defaultConfig 1 = some ⟨200, 1⟩ ∧
    (⟨200, 1⟩ : Config).height - 1 = 0 ∧
    (∀ draws, randint 2147483647 0 draws = .error Fault.divisionByZero) ∧
    (∀ draws, fillArray 2147483647 ⟨200, 1⟩ draws = .error Fault.divisionByZero) ∧
    (∀ draws, fillArray 32767 ⟨200, 1⟩ draws = .error Fault.divisionByZero) := by
  refine ⟨by decide, by decide, ?_, ?_, ?_⟩
  · intro draws
    simp [randint]
  · intro draws
    simp [fillArray, forLoop, forLoopAux, randint]
  · intro draws
    simp [fillArray, forLoop, forLoopAux, randint]

/-- Witness of C6 on `[5, 3, 4, 1, 2]` with `start = 0`, `end = 4`: the call returns 1 and
leaves `[1, 2, 4, 5, 3]`. -/
theorem partition_correct_witness :
    ((5 : Int) ≤ demoMachine.arr.length ∧ (0 : Int) ≤ 0 ∧ (0 : Int) ≤ 4 ∧
      (4 : Int) < demoMachine.arr.length) ∧
    (∃ p m2, partition 5 demoMachine 0 4 = .ok (p, m2) ∧ 0 ≤ p ∧ p ≤ 4 ∧
      p = 0 + (((demoMachine.arr.drop (0 : Int).toNat).take ((4 : Int) - 0).toNat).countP
        (· < demoMachine.arr.getD (4 : Int).toNat 0) : Nat) ∧
      m2.arr.getD p.toNat 0 = demoMachine.arr.getD (4 : Int).toNat 0 ∧
      (∀ k : Int, 0 ≤ k → k < p → m2.arr.getD k.toNat 0 < m2.arr.getD p.toNat 0) ∧
      (∀ k : Int, p < k → k ≤ 4 → m2.arr.getD p.toNat 0 ≤ m2.arr.getD k.toNat 0) ∧
      ((m2.arr.drop (0 : Int).toNat).take ((4 : Int) - 0 + 1).toNat).Perm
        ((demoMachine.arr.drop (0 : Int).toNat).take ((4 : Int) - 0 + 1).toNat) ∧
      m2.arr.take (0 : Int).toNat = demoMachine.arr.take (0 : Int).toNat ∧
      m2.arr.drop ((4 : Int) + 1).toNat = demoMachine.arr.drop ((4 : Int) + 1).toNat ∧
      m2.arr.length = demoMachine.arr.length) ∧
    Except.map (fun r => (r.1, r.2.arr)) (partition 5 demoMachine 0 4)
      = .ok (1, [1, 2, 4, 5, 3]) :=
  ⟨⟨by decide, by decide, by decide, by decide⟩,
    partition_correct 5 demoMachine 0 4 (by decide) (by decide) (by decide) (by decide),
    by rfl⟩

/-- Witness of C8 on `[5, 3, 4, 1, 2]` with `C.width = 5`, with the trace of
`partition(arr, 0, 4)`, and the call `partition(arr, 1, 3)` on `[9, 4, 1, 3, 0]`, whose
`draw_state` reads leave `[1, 3]` and which is out of range at index 5 when `C.width` is
6. -/
theorem sorts_stay_in_range_witness :
    (1 ≤ demoMachine.arr.length ∧ (5 : Int) ≤ demoMachine.arr.length ∧
      demoMachine.arr.length ≤ 4 + 1 ∧
      (0 : Int) ≤ 0 ∧ (0 : Int) ≤ 4 ∧ (4 : Int) < demoMachine.arr.length) ∧
    ((∃ m2, bubble_sort demoMachine.arr.length ⟨demoMachine.arr, []⟩ = .ok m2 ∧
      ∀ e ∈ m2.trace, e.okIn demoMachine.arr.length 0 demoMachine.arr.length) ∧
    (∃ m2, quick_sort 5 4 ⟨demoMachine.arr, []⟩ 0 ((demoMachine.arr.length : Int) - 1)
        = .ok m2 ∧
      ∀ e ∈ m2.trace, e.okIn demoMachine.arr.length 0 demoMachine.arr.length) ∧
    (∃ p m2, partition 5 ⟨demoMachine.arr, []⟩ 0 4 = .ok (p, m2) ∧
      ∀ e ∈ m2.trace, e.okIn demoMachine.arr.length 0 (4 + 1))) ∧
    Except.map (fun r => r.2.trace) (partition 5 demoMachine 0 4)
      = .ok ([Event.call 0 4, Event.read 4,
          Event.read 0, Event.screen (-1) 0] ++ drawReads 5 ++
          [Event.read 1, Event.screen (-1) 1] ++ drawReads 5 ++
          [Event.read 2, Event.screen (-1) 2] ++ drawReads 5 ++
          [Event.read 3, Event.read 0, Event.read 3, Event.write 0, Event.write 3,
            Event.screen 0 3] ++ drawReads 5 ++
          [Event.read 1, Event.read 4, Event.write 1, Event.write 4]) ∧
    drawReads 5 = [Event.draw 0, Event.draw 1, Event.draw 2, Event.draw 3, Event.draw 4] ∧
    Except.map (fun r => r.2.trace) (partition 5 ⟨[9, 4, 1, 3, 0], []⟩ 1 3)
      = .ok ([Event.call 1 3, Event.read 3,
          Event.read 1, Event.screen 0 1] ++ drawReads 5 ++
          [Event.read 2, Event.read 1, Event.read 2, Event.write 1, Event.write 2,
            Event.screen 1 2] ++ drawReads 5 ++
          [Event.read 2, Event.read 3, Event.write 2, Event.write 3]) ∧
    partition 6 ⟨[9, 4, 1, 3, 0], []⟩ 1 3 = .error (Fault.outOfRange 5) :=
  ⟨⟨by decide, by decide, by decide, by decide, by decide, by decide⟩,
    sorts_stay_in_range demoMachine.arr 5 4 0 4 (by decide) (by decide) (by decide)
      (by decide) (by decide) (by decide),
    by rfl, by rfl, by rfl, by rfl⟩

/-- Witness of C9 on the all-equal array `[7, 7, 7, 7]`, with the run on it. -/
theorem quick_sort_terminates_witness :
    ((4 : Int) ≤ (Machine.mk [7, 7, 7, 7] []).arr.length ∧ (0 : Int) ≤ 0 ∧
      (3 : Int) < (Machine.mk [7, 7, 7, 7] []).arr.length ∧ ((3 : Int) - 0).toNat ≤ 3) ∧
    ((∃ m2, quick_sort 4 3 ⟨[7, 7, 7, 7], []⟩ 0 3 = .ok m2) ∧
    ((3 : Int) ≤ 0 →
      ∀ fuel0, quick_sort 4 fuel0 ⟨[7, 7, 7, 7], []⟩ 0 3 = .ok ⟨[7, 7, 7, 7], []⟩) ∧
    ((0 : Int) < 3 → ∃ p m1, partition 4 ⟨[7, 7, 7, 7], []⟩ 0 3 = .ok (p, m1) ∧ 0 ≤ p ∧
      p ≤ 3 ∧
      ((p - 1) - 0 + 1).toNat < ((3 : Int) - 0 + 1).toNat ∧
      (3 - (p + 1) + 1).toNat < ((3 : Int) - 0 + 1).toNat)) ∧
    Except.map Machine.arr (quick_sort 4 3 ⟨[7, 7, 7, 7], []⟩ 0 3) = .ok [7, 7, 7, 7] :=
  ⟨⟨by decide, by decide, by decide, by decide⟩,
    quick_sort_terminates 4 ⟨[7, 7, 7, 7], []⟩ 0 3 3 (by decide) (by decide) (by decide)
      (by decide),
    by simp [quick_sort, partition, forLoop, forLoopAux, partitionStep, swap, arrRead,
      arrWrite, update_screen_ok, Except.map]⟩

/-- Witness of C10 on `[5, 3, 4, 1, 2]` with `start = 0`, `end = 4`: the notifications of
the call are `(-1, 0), (-1, 1), (-1, 2), (0, 3)`. -/
theorem partition_notifications_witness :
    ((5 : Int) ≤ demoMachine.arr.length ∧ (0 : Int) ≤ 0 ∧ (0 : Int) ≤ 4 ∧
      (4 : Int) < demoMachine.arr.length) ∧
    ((∃ p m2 evs, partition 5 demoMachine 0 4 = .ok (p, m2) ∧
      m2.trace = demoMachine.trace ++ evs ++
        [Event.read p, Event.read 4, Event.write p, Event.write 4] ∧
      screens m2.trace = screens demoMachine.trace ++ screens evs ∧
      screens evs = (List.range ((4 : Int) - 0).toNat).map
        (fun (t : Nat) => ((0 : Int) - 1 + (((demoMachine.arr.drop (0 : Int).toNat).take
            (t + 1)).countP (· < demoMachine.arr.getD (4 : Int).toNat 0) : Nat),
          (0 : Int) + (t : Int))) ∧
      (screens evs).length = ((4 : Int) - 0).toNat ∧
      ∀ q ∈ screens evs, (0 : Int) - 1 ≤ q.1 ∧ q.1 ≤ q.2 ∧ 0 ≤ q.2 ∧ q.2 < 4) ∧
    quick_sort 5 0 ⟨[7], []⟩ 0 0 = .ok ⟨[7], []⟩) ∧
    Except.map (fun r => screens r.2.trace) (partition 5 demoMachine 0 4)
      = .ok [(-1, 0), (-1, 1), (-1, 2), (0, 3)] :=
  ⟨⟨by decide, by decide, by decide, by decide⟩,
    partition_notifications 5 demoMachine 0 4 0 7 [] (by decide) (by decide) (by decide)
      (by decide),
    by rfl⟩

end SortVisualizer
